import Mathlib

/-!
# Receipt processor: validation and scoring

A shallow embedding of `main.go`: the receipt data model, the five regular
expressions and `validateReceipt`, and the five scoring functions summed by
`getPoints`.

Conventions of the embedding.

* A Go `string` is a `List Char` (the JSON decoder only produces valid UTF-8,
  so a string is a sequence of Unicode scalar values); `len` is the UTF-8 byte
  length.
* Go `int` is the 64-bit two's-complement integer: every accumulation that can
  leave the range goes through `wrapInt`.
* `float64` values are binary64 numbers. Only finite non-negative values occur
  (no sign is ever parsed), and every such value is an integer multiple of
  `2^-1074`: `F64.units` is that multiple. Parsing and multiplication round to
  nearest, ties to even, exactly as IEEE 754 prescribes.
* A conversion `int(x)` of a float64 that does not fit a 64-bit `int` succeeds
  in Go with an implementation-dependent value. The scoring functions take that
  choice as the parameter `conv`, so that they return a value for every receipt
  the validator accepts, and every statement holds for every implementation.
* A result of type `Option` is `none` where the library call lies outside the
  fragment modelled here: `ParseFloat` on a string that is not a plain unsigned
  decimal, which the validator never lets through.
-/

namespace ReceiptProcessor

open RegularExpression

/-! ## Data model -/

/-- A Go string. -/
abbrev Str := List Char

/-- An item of a receipt (`type Item struct`). -/
structure Item where
  ShortDescription : Str
  Price : Str
  deriving DecidableEq

/-- A receipt (`type Receipt struct`). -/
structure Receipt where
  Retailer : Str
  PurchaseDate : Str
  PurchaseTime : Str
  Total : Str
  Items : List Item
  deriving DecidableEq

/-! ## Characters and integers -/

/-- ASCII decimal digit, `'0' <= c && c <= '9'`. -/
def isDigit (c : Char) : Bool := decide (48 ≤ c.toNat) && decide (c.toNat ≤ 57)

/-- ASCII lower-case letter. -/
def isLower (c : Char) : Bool := decide (97 ≤ c.toNat) && decide (c.toNat ≤ 122)

/-- ASCII upper-case letter. -/
def isUpper (c : Char) : Bool := decide (65 ≤ c.toNat) && decide (c.toNat ≤ 90)

/-- Value of a decimal digit, `c - '0'`. -/
def digitVal (c : Char) : Nat := c.toNat - 48

/-- Value of a string of decimal digits, most significant first. -/
def decimalValue (ds : Str) : Nat := ds.foldl (fun acc c => 10 * acc + digitVal c) 0

/-- Length of a Go string in bytes (`len(s)`). -/
def byteLen (s : Str) : Nat := (s.map Char.utf8Size).sum

/-- Reduction of an integer to the range of a 64-bit `int`. -/
def wrapInt (x : Int) : Int := (x + 2 ^ 63) % 2 ^ 64 - 2 ^ 63

/-! ## Binary64 arithmetic -/

/-- The number of `2^-1074` steps in `1.0`. -/
def oneUnits : Nat := 2 ^ 1074

/-- A finite non-negative binary64 value, `units * 2^-1074`. -/
structure F64 where
  units : Nat
  deriving DecidableEq

/-- Number of binary digits of `n`, by halving at most `fuel` times. -/
def bitLenAux : Nat → Nat → Nat
  | 0, _ => 0
  | fuel + 1, n => if n = 0 then 0 else bitLenAux fuel (n / 2) + 1

/-- Number of binary digits of `n` (`0` for `0`). -/
def bitLen (n : Nat) : Nat := bitLenAux n n

/-- Nearest integer to `n / d`, a tie going to the even neighbour. -/
def roundHalfEven (n d : Nat) : Nat :=
  let q := n / d
  let r := n % d
  if 2 * r < d then q
  else if d < 2 * r then q + 1
  else if q % 2 = 0 then q else q + 1

/-- Nearest number with a 53-bit significand to `n / d`, both counted in
`2^-1074` steps, with no bound on the exponent: the quotient is rounded to a
multiple of `2^s`, where `s` is the number of bits its integer part has beyond
53 (none for a subnormal). -/
def roundUnits (n d : Nat) : Nat :=
  let s := bitLen (n / d) - 53
  roundHalfEven n (d * 2 ^ s) * 2 ^ s

/-- Rounding of the rational `n / d` to binary64; `none` is overflow to `+Inf`. -/
def F64.ofRat (n d : Nat) : Option F64 :=
  let k := roundUnits (n * oneUnits) d
  if k < 2 ^ 1024 * oneUnits then some ⟨k⟩ else none

/-- Product of two values, `a * b`; `none` is overflow to `+Inf`. -/
def F64.mul (a b : F64) : Option F64 :=
  let k := roundUnits (a.units * b.units) oneUnits
  if k < 2 ^ 1024 * oneUnits then some ⟨k⟩ else none

/-- Conversion `int(f)` where Go fixes its value: truncation, when the result
fits a 64-bit `int`; `none` otherwise. -/
def F64.toInt (f : F64) : Option Int :=
  let i := f.units / oneUnits
  if i < 2 ^ 63 then some (i : Int) else none

/-- What an implementation makes of the conversions `int(x)` that Go leaves
implementation-dependent: those of a value `x` that does not fit a 64-bit
`int`, either finite (`some f`) or `+Inf` (`none`). On amd64 it is `-2^63`
for every such value; arm64 saturates at `2^63 - 1`. -/
abbrev IntConv := Option F64 → Int

/-- Conversion `int(x)` of a float64 that is finite (`some f`) or `+Inf`
(`none`): truncation when the result fits a 64-bit `int`, and otherwise the
64-bit value the implementation `conv` gives. -/
def convertInt (conv : IntConv) (x : Option F64) : Int :=
  match x.bind F64.toInt with
  | some i => i
  | none => wrapInt (conv x)

/-- Conversion `float64(i)` of a non-negative `int`. -/
def F64.ofInt (i : Int) : Option F64 := F64.ofRat i.toNat 1

/-- Function `math.Ceil` on a finite non-negative value. -/
def F64.ceil (f : F64) : F64 := ⟨(f.units + (oneUnits - 1)) / oneUnits * oneUnits⟩

/-- Outcome of `strconv.ParseFloat(s, 64)`. -/
inductive ParseFloatResult where
  /-- A value with `err == nil`. -/
  | ok (f : F64)
  /-- The error `ErrRange`: the number rounds beyond the largest float64. -/
  | rangeErr
  deriving DecidableEq

/-- Integer and fraction digits of a plain unsigned decimal `ddd.ddd`, `ddd`,
`ddd.` or `.ddd` (at least one digit). -/
def splitDecimal (s : Str) : Option (Str × Str) :=
  let ip := s.takeWhile isDigit
  match s.dropWhile isDigit with
  | [] => if ip = [] then none else some (ip, [])
  | c :: fp =>
    if c = '.' ∧ fp.all isDigit = true ∧ (ip ≠ [] ∨ fp ≠ []) then some (ip, fp) else none

/-- Call `strconv.ParseFloat(s, 64)` on a plain unsigned decimal: the nearest
binary64 to the decimal value, or `ErrRange`. Other notations (sign, exponent,
hexadecimal, `inf`, `nan`, digit separators) are outside the fragment: `none`. -/
def ParseFloat (s : Str) : Option ParseFloatResult :=
  match splitDecimal s with
  | none => none
  | some (ip, fp) =>
    match F64.ofRat (decimalValue (ip ++ fp)) (10 ^ fp.length) with
    | some f => some (.ok f)
    | none => some .rangeErr

/-- The constant `100` as a float64. -/
def f100 : F64 := ⟨100 * oneUnits⟩

/-- The constant `0.2` as a float64: `0x1.999999999999ap-3`. -/
def f0_2 : F64 := ⟨7205759403792794 * 2 ^ 1019⟩

/-! ## Library calls: `strings.TrimSpace`, `time.Parse`, `regexp` -/

/-- White space in the sense of `unicode.IsSpace`. -/
def isSpace (c : Char) : Bool :=
  let n := c.toNat
  decide (9 ≤ n ∧ n ≤ 13) || n == 32 || n == 0x85 || n == 0xA0 || n == 0x1680 ||
    decide (0x2000 ≤ n ∧ n ≤ 0x200A) || n == 0x2028 || n == 0x2029 || n == 0x202F ||
    n == 0x205F || n == 0x3000

/-- Library `strings.TrimSpace`: leading and trailing white space removed. -/
def TrimSpace (s : Str) : Str := ((s.dropWhile isSpace).reverse.dropWhile isSpace).reverse

/-- Helper `getnum` of package `time`: a number of one or two digits (exactly
two when `fixed`) and the rest of the input. -/
def getnum (s : Str) (fixed : Bool) : Option (Nat × Str) :=
  match s with
  | [] => none
  | c0 :: rest0 =>
    if isDigit c0 then
      match rest0 with
      | [] => if fixed then none else some (digitVal c0, rest0)
      | c1 :: rest1 =>
        if isDigit c1 then some (digitVal c0 * 10 + digitVal c1, rest1)
        else if fixed then none else some (digitVal c0, rest0)
    else none

/-- Helper `skip` of package `time` for a one-character literal of the layout. -/
def skip (value : Str) (lit : Char) : Option Str :=
  match value with
  | [] => none
  | c :: rest => if c = lit then some rest else none

/-- Helper `isLeap` of package `time`. -/
def isLeap (year : Nat) : Bool :=
  year % 4 == 0 && (year % 100 != 0 || year % 400 == 0)

/-- Helper `daysIn` of package `time`: `30 + ((m + m>>3) & 1)` outside February. -/
def daysIn (month year : Nat) : Nat :=
  if month = 2 then (if isLeap year then 29 else 28)
  else 30 + (month + month / 8) % 2

/-- A successfully parsed calendar date. -/
structure Date where
  year : Nat
  month : Nat
  day : Nat
  deriving DecidableEq

/-- Method `Day` of a parsed date. -/
def Date.Day (d : Date) : Nat := d.day

/-- Call `time.Parse("2006-01-02", value)`; `none` is a non-nil error. The year
is exactly four digits, month and day exactly two; the month must lie in
`1..12` and the day in `1..daysIn`; nothing may follow. -/
def parseDate (value : Str) : Option Date :=
  match value with
  | y1 :: y2 :: y3 :: y4 :: rest =>
    if isDigit y1 && isDigit y2 && isDigit y3 && isDigit y4 then do
      let year := decimalValue [y1, y2, y3, y4]
      let rest ← skip rest '-'
      let (month, rest) ← getnum rest true
      if month = 0 ∨ 12 < month then none
      let rest ← skip rest '-'
      let (day, rest) ← getnum rest true
      if rest ≠ [] then none
      if day < 1 ∨ daysIn month year < day then none
      pure ⟨year, month, day⟩
    else none
  | _ => none

/-- A successfully parsed time of day. -/
structure Clock where
  hour : Nat
  min : Nat
  deriving DecidableEq

/-- Method `Hour` of a parsed time. -/
def Clock.Hour (t : Clock) : Nat := t.hour

/-- Call `time.Parse("15:04", value)`; `none` is a non-nil error. The hour has
one or two digits and is below 24, the minute has two digits and is below 60. -/
def parseClock (value : Str) : Option Clock := do
  let (hour, rest) ← getnum value false
  if 24 ≤ hour then none
  let rest ← skip rest ':'
  let (min, rest) ← getnum rest true
  if 60 ≤ min then none
  if rest ≠ [] then none
  pure ⟨hour, min⟩

/-- The characters with codes `lo, lo+1, …, lo+n-1`. -/
def charRange (lo n : Nat) : List Char := (List.range n).map (fun i => Char.ofNat (lo + i))

/-- A character class: any one of the listed characters. -/
def oneOf (cs : List Char) : RegularExpression Char := cs.foldr (fun c r => char c + r) 0

/-- Quantifier `+`: one or more repetitions. -/
def many1 (r : RegularExpression Char) : RegularExpression Char := r * star r

/-- Quantifier `?`: at most one occurrence. -/
def opt (r : RegularExpression Char) : RegularExpression Char := r + 1

/-- Class `\d`, that is `[0-9]`. -/
def digitChars : List Char := charRange 48 10

/-- Class `\w`, that is `[0-9A-Za-z_]`. -/
def wordChars : List Char := charRange 48 10 ++ charRange 65 26 ++ ['_'] ++ charRange 97 26

/-- Class `\s`, that is `[\t\n\f\r ]`. -/
def spaceChars : List Char := ['\t', '\n', '\x0c', '\r', ' ']

/-- Pattern `^[\w\s\-&]+$`. -/
def retailerPattern : RegularExpression Char :=
  many1 (oneOf (wordChars ++ spaceChars ++ ['-', '&']))

/-- Pattern `^\d{4}-\d{2}-\d{2}$` (declared by the source, used nowhere). -/
def datePattern : RegularExpression Char :=
  oneOf digitChars * oneOf digitChars * oneOf digitChars * oneOf digitChars * char '-' *
    oneOf digitChars * oneOf digitChars * char '-' * oneOf digitChars * oneOf digitChars

/-- Pattern `^(2[0-3]|[01]?[0-9]):([0-5][0-9])$`. -/
def timePattern : RegularExpression Char :=
  (char '2' * oneOf (charRange 48 4) + opt (oneOf (charRange 48 2)) * oneOf digitChars) *
    char ':' * (oneOf (charRange 48 6) * oneOf digitChars)

/-- Pattern `^\d+\.\d{2}$`. -/
def moneyPattern : RegularExpression Char :=
  many1 (oneOf digitChars) * char '.' * (oneOf digitChars * oneOf digitChars)

/-- Pattern `^[\w\s\-]+$`. -/
def itemDescPattern : RegularExpression Char :=
  many1 (oneOf (wordChars ++ spaceChars ++ ['-']))

/-- Method `MatchString` of an anchored pattern: the whole string matches. -/
def MatchString (p : RegularExpression Char) (s : Str) : Bool := p.rmatch s

/-! ## Validation -/

/-- Source `validateReceipt`. -/
def validateReceipt (receipt : Receipt) : Bool :=
  if !MatchString retailerPattern receipt.Retailer then false
  else if (parseDate receipt.PurchaseDate).isNone then false
  else if !MatchString timePattern receipt.PurchaseTime then false
  else if !MatchString moneyPattern receipt.Total then false
  else receipt.Items.all (fun item =>
    !(!MatchString itemDescPattern item.ShortDescription || !MatchString moneyPattern item.Price))

/-! ## Scoring rules -/

/-- Source `countOfAlphaNumInRetailer`: one point per ASCII letter or digit. -/
def countOfAlphaNumInRetailer (retailerName : Str) : Int :=
  retailerName.foldl
    (fun points ch => if isLower ch || isUpper ch || isDigit ch then points + 1 else points) 0

/-- Source `isTotalRoundOrMultipleOfQuarter`. -/
def isTotalRoundOrMultipleOfQuarter (conv : IntConv) (total : Str) : Option Int :=
  match ParseFloat total with
  | none => none
  | some .rangeErr => some 0
  | some (.ok totalFloat) =>
    let points : Int := 0
    -- 50 points if the total is a round dollar amount
    let i := convertInt conv (some totalFloat)
    -- `float64(i)` of a negative `i` is negative and `totalFloat` is not
    let points := if 0 ≤ i ∧ F64.ofInt i = some totalFloat then points + 50 else points
    -- 25 points if the total is a multiple of 0.25
    let j := convertInt conv (totalFloat.mul f100)
    let points := if j.tmod 25 = 0 then points + 25 else points
    some points

/-- One iteration of the loop of `pointsForItems`. -/
def itemStep (conv : IntConv) (points : Int) (item : Item) : Option Int :=
  if byteLen (TrimSpace item.ShortDescription) % 3 = 0 then
    match ParseFloat item.Price with
    | none => none
    | some .rangeErr => some points
    | some (.ok priceFloat) =>
      let n := convertInt conv ((priceFloat.mul f0_2).map F64.ceil)
      some (wrapInt (points + n))
  else some points

/-- Source `pointsForItems`. -/
def pointsForItems (conv : IntConv) (items : List Item) : Option Int :=
  -- 5 points for every two items
  let points : Int := ((items.length : Int) / 2) * 5
  items.foldlM (itemStep conv) points

/-- Source `isDateOdd`. -/
def isDateOdd (purchaseDate : Str) : Int :=
  match parseDate purchaseDate with
  | some date => if date.Day % 2 ≠ 0 then 6 else 0
  | none => 0

/-- Source `isTimeBetweenTwoAndFour`. -/
def isTimeBetweenTwoAndFour (purchaseTime : Str) : Int :=
  match parseClock purchaseTime with
  | some time => if 14 ≤ time.Hour ∧ time.Hour < 16 then 10 else 0
  | none => 0

/-! ## Store and handlers -/

/-- The in-memory map `receipts`. -/
abbrev Store := Str → Option Receipt

/-- The map at start-up, `make(map[string]Receipt)`. -/
def emptyStore : Store := fun _ => none

/-- What `getPoints` writes: the JSON object with the points, or status 404. -/
inductive PointsResponse where
  | points (p : Int)
  | notFound
  deriving DecidableEq

/-- Sum of the five rules as `getPoints` accumulates it. -/
def score (conv : IntConv) (receipt : Receipt) : Option Int := do
  let points := countOfAlphaNumInRetailer receipt.Retailer
  let points := wrapInt (points + (← isTotalRoundOrMultipleOfQuarter conv receipt.Total))
  let points := wrapInt (points + (← pointsForItems conv receipt.Items))
  let points := wrapInt (points + isDateOdd receipt.PurchaseDate)
  let points := wrapInt (points + isTimeBetweenTwoAndFour receipt.PurchaseTime)
  pure points

/-- Source `getPoints`, for the path variable `id`. -/
def getPoints (conv : IntConv) (receipts : Store) (id : Str) : Option PointsResponse :=
  match receipts id with
  | some receipt => (score conv receipt).map PointsResponse.points
  | none => some PointsResponse.notFound

/-- What `processReceipt` writes: the JSON object with the identifier, or
status 400 with the text `The receipt is invalid`. -/
inductive ProcessResponse where
  | created (id : Str)
  | badRequest
  deriving DecidableEq

/-- Source `processReceipt`. The body is given by what the JSON decoder makes of
it (`none` when `Decode` returns an error) and `newID` is the value that
`generateID` returns in this call; the result is the map afterwards and the
response. -/
def processReceipt (receipts : Store) (body : Option Receipt) (newID : Str) :
    Store × ProcessResponse :=
  match body with
  | none => (receipts, ProcessResponse.badRequest)
  | some receipt =>
    -- validate the receipt fields
    if !validateReceipt receipt then (receipts, ProcessResponse.badRequest)
    else
      let id := newID
      (fun k => if k = id then some receipt else receipts k, ProcessResponse.created id)

/-- A request to one of the two routes. -/
inductive Request where
  | process (body : Option Receipt) (newID : Str)
  | points (id : Str)

/-- The map `receipts` after a request: `processReceipt` may insert,
`getPoints` only reads. -/
def serve (receipts : Store) : Request → Store
  | Request.process body newID => (processReceipt receipts body newID).1
  | Request.points _ => receipts

/-- The map `receipts` after a sequence of requests. -/
def serveAll (receipts : Store) (requests : List Request) : Store :=
  requests.foldl serve receipts

/-! ## Vocabulary of the specification -/

/-- Spec wording: the ASCII letters `a-z`, `A-Z` and the ASCII digits `0-9`. -/
def asciiLettersAndDigits : List Char :=
  "abcdefghijklmnopqrstuvwxyzABCDEFGHIJKLMNOPQRSTUVWXYZ0123456789".data

/-- Spec wording: the number of characters of the raw string that are ASCII
letters or digits. -/
def alphaNumCount (s : Str) : Nat :=
  (s.filter (fun c => decide (c ∈ asciiLettersAndDigits))).length

/-- Spec wording: the hour component of a purchase time, the number written
before the colon. -/
def hourComponent (s : Str) : Nat := decimalValue (s.takeWhile (fun c => c != ':'))

/-- Spec wording: `HH:MM` with a two-digit hour 00–23 and a two-digit minute
00–59. -/
def isHHMM (s : Str) : Bool :=
  match s with
  | [h1, h2, c, m1, m2] =>
    isDigit h1 && isDigit h2 && c == ':' && isDigit m1 && isDigit m2 &&
      decide (decimalValue [h1, h2] < 24) && decide (decimalValue [m1, m2] < 60)
  | _ => false

/-- The form `H:MM`: a one-digit hour and a two-digit minute 00–59. -/
def isHMM (s : Str) : Bool :=
  match s with
  | [h1, c, m1, m2] =>
    isDigit h1 && c == ':' && isDigit m1 && isDigit m2 && decide (decimalValue [m1, m2] < 60)
  | _ => false

/-- Spec wording: the number of days of a month of the Gregorian calendar,
leap years respected (`0` for a month outside 1–12). -/
def calendarDays (year month : Nat) : Nat :=
  match month with
  | 1 => 31
  | 2 => if (year % 4 = 0 ∧ year % 100 ≠ 0) ∨ year % 400 = 0 then 29 else 28
  | 3 => 31
  | 4 => 30
  | 5 => 31
  | 6 => 30
  | 7 => 31
  | 8 => 31
  | 9 => 30
  | 10 => 31
  | 11 => 30
  | 12 => 31
  | _ => 0

/-- Spec wording: a real calendar date written `YYYY-MM-DD` (four-digit year,
two-digit month 01–12, two-digit day that exists in that month and year); the
result is the year, the month and the day-of-month. -/
def calendarDate (s : Str) : Option (Nat × Nat × Nat) :=
  match s with
  | [y1, y2, y3, y4, a, m1, m2, b, d1, d2] =>
    let year := decimalValue [y1, y2, y3, y4]
    let month := decimalValue [m1, m2]
    let day := decimalValue [d1, d2]
    if [y1, y2, y3, y4, m1, m2, d1, d2].all isDigit ∧ a = '-' ∧ b = '-' ∧
        1 ≤ month ∧ month ≤ 12 ∧ 1 ≤ day ∧ day ≤ calendarDays year month
    then some (year, month, day) else none
  | _ => none

/-- Spec wording: a whitespace character of a retailer name or description
(space, tab, line feed, form feed, carriage return). -/
def isWhitespaceChar (c : Char) : Bool :=
  c == ' ' || c == '\t' || c == '\n' || c == '\x0c' || c == '\r'

/-- Spec wording: a letter, a digit, whitespace, a hyphen or an ampersand. -/
def isRetailerChar (c : Char) : Bool :=
  isLower c || isUpper c || isDigit c || isWhitespaceChar c || c == '-' || c == '&'

/-- Spec wording: a non-empty string composed only of letters, digits,
whitespace, hyphen and ampersand. -/
def isRetailerText (s : Str) : Bool := !s.isEmpty && s.all isRetailerChar

/-- The retailer names the code accepts: as `isRetailerText`, with the
underscore as one more admissible character. -/
def isRetailerTextOrUnderscore (s : Str) : Bool :=
  !s.isEmpty && s.all (fun c => isRetailerChar c || c == '_')

/-- Scenario 1 of the specification with two of its items: retailer `Target`,
bought on 2022-01-01 at 13:01 for a total of 35.35. -/
def targetReceipt : Receipt :=
  { Retailer := "Target".data
    PurchaseDate := "2022-01-01".data
    PurchaseTime := "13:01".data
    Total := "35.35".data
    Items := [⟨"Gum".data, "6.49".data⟩, ⟨"Pepsi".data, "12.25".data⟩] }

/-- Spec wording: the whole-unit part of a money string, the number written
before the point. -/
def dollarsOf (s : Str) : Nat := decimalValue (s.takeWhile (fun c => c != '.'))

/-- Spec wording: the fraction digits of a money string, what follows the point. -/
def fractionDigits (s : Str) : Str := (s.dropWhile (fun c => c != '.')).drop 1

/-- Spec wording: a money string expressed as an integer number of cents. -/
def centsOf (s : Str) : Nat := decimalValue (s.filter (fun c => c != '.'))

/-- Spec wording: the true mathematical ceiling of `price × 0.2`. -/
def ceilOfFifth (price : Str) : Int := ⌈(centsOf price : ℚ) / 100 * (2 / 10)⌉

/-- Spec wording: the items whose short description, after trimming leading
and trailing whitespace, has a character length divisible by three. -/
def qualifyingItems (items : List Item) : List Item :=
  items.filter (fun item => decide ((TrimSpace item.ShortDescription).length % 3 = 0))

/-- Spec wording: five points for every complete pair of items, plus the
ceiling of a fifth of the price of every qualifying item. -/
def itemPoints (items : List Item) : Int :=
  5 * ((items.length / 2 : Nat) : Int) +
    ((qualifyingItems items).map (fun item => ceilOfFifth item.Price)).sum

/-- Scenario 1 of the specification with two items whose descriptions have 3
and 6 characters. -/
def scenario1Receipt : Receipt :=
  { targetReceipt with Items := [⟨"Gum".data, "6.49".data⟩, ⟨"Crisps".data, "10.00".data⟩] }

/-- A store holding one receipt under the identifier `id`. -/
def singletonStore (id : Str) (r : Receipt) : Store := fun k => if k = id then some r else none

/-- Spec wording: one or more decimal digits, a point, and exactly two decimal
digits, with no sign, no thousands separator and no other character. -/
def isMoneyText (s : Str) : Bool :=
  !(s.takeWhile isDigit).isEmpty &&
    match s.dropWhile isDigit with
    | [p, a, b] => p == '.' && isDigit a && isDigit b
    | _ => false

/-- Spec wording: a letter, a digit, whitespace or a hyphen. -/
def isItemDescChar (c : Char) : Bool :=
  isLower c || isUpper c || isDigit c || isWhitespaceChar c || c == '-'

/-- Spec wording: an item with a non-empty short description composed only of
letters, digits, whitespace and hyphen, and a price of the money shape. -/
def isItemText (item : Item) : Bool :=
  !item.ShortDescription.isEmpty && item.ShortDescription.all isItemDescChar &&
    isMoneyText item.Price

/-- The items the code accepts: as `isItemText`, with the underscore as one
more admissible character of the description. -/
def isItemTextOrUnderscore (item : Item) : Bool :=
  !item.ShortDescription.isEmpty &&
    item.ShortDescription.all (fun c => isItemDescChar c || c == '_') &&
    isMoneyText item.Price

/-- A well-formed version-4 identifier, as `uuid.NewString` produces them. -/
def sampleID : Str := "123e4567-e89b-42d3-a456-426614174000".data

/-- A total of 309 integer digits, `2` followed by 308 zeros, and `.00`. -/
def hugeTotal : Str := '2' :: List.replicate 308 '0' ++ ".00".data

/-! ## Auxiliary definitions -/

/-- The value of `isTotalRoundOrMultipleOfQuarter` when both conversions to
`int` are of values that fit a 64-bit `int`, so that it is the same in every
implementation; `none` otherwise. -/
def totalDefined (total : Str) : Option Int :=
  match ParseFloat total with
  | none => none
  | some .rangeErr => some 0
  | some (.ok totalFloat) => do
    let points : Int := 0
    let i ← totalFloat.toInt
    let back ← F64.ofInt i
    let points := if totalFloat = back then points + 50 else points
    let scaled ← totalFloat.mul f100
    let j ← scaled.toInt
    let points := if j.tmod 25 = 0 then points + 25 else points
    pure points

/-- The value of `itemStep` when the conversion to `int` is of a value that
fits a 64-bit `int`; `none` otherwise. -/
def itemStepDefined (points : Int) (item : Item) : Option Int :=
  if byteLen (TrimSpace item.ShortDescription) % 3 = 0 then
    match ParseFloat item.Price with
    | none => none
    | some .rangeErr => some points
    | some (.ok priceFloat) => do
      let product ← priceFloat.mul f0_2
      let n ← product.ceil.toInt
      pure (wrapInt (points + n))
  else some points

/-- The value of `pointsForItems` when every conversion to `int` is of a value
that fits a 64-bit `int`; `none` otherwise. -/
def pointsForItemsDefined (items : List Item) : Option Int :=
  let points : Int := ((items.length : Int) / 2) * 5
  items.foldlM itemStepDefined points

/-- What one item adds in the loop of `pointsForItems`: `some none` when the
item is skipped (description length not divisible by three, or `continue` on a
parse error), `some (some n)` when `n` is added, `none` when the price is not a
plain decimal. -/
def itemDelta (conv : IntConv) (item : Item) : Option (Option Int) :=
  if byteLen (TrimSpace item.ShortDescription) % 3 = 0 then
    match ParseFloat item.Price with
    | none => none
    | some .rangeErr => some none
    | some (.ok priceFloat) =>
      some (some (convertInt conv ((priceFloat.mul f0_2).map F64.ceil)))
  else some none

/-- The accumulator of `pointsForItems` after an item: unchanged when the item
is skipped, advanced by its points otherwise. -/
def addDelta (points : Int) : Option Int → Int
  | none => points
  | some n => wrapInt (points + n)

/-! ## Lemmas on characters and regular expressions -/

theorem toNat_ofNat_of_lt {n : Nat} (h : n < 55296) : (Char.ofNat n).toNat = n := by
  have hv : n.isValidChar := Or.inl h
  simp [Char.ofNat, hv, Char.toNat, Char.ofNatAux, UInt32.toNat]

theorem mem_charRange {lo n : Nat} (h : lo + n ≤ 55296) (c : Char) :
    c ∈ charRange lo n ↔ lo ≤ c.toNat ∧ c.toNat < lo + n := by
  unfold charRange
  simp only [List.mem_map, List.mem_range]
  constructor
  · rintro ⟨i, hi, rfl⟩
    rw [toNat_ofNat_of_lt (by omega)]
    omega
  · rintro ⟨h1, h2⟩
    refine ⟨c.toNat - lo, by omega, ?_⟩
    rw [show lo + (c.toNat - lo) = c.toNat by omega]
    exact Char.ofNat_toNat c

theorem mem_digitChars (c : Char) : c ∈ digitChars ↔ isDigit c = true := by
  unfold digitChars isDigit
  rw [mem_charRange (by norm_num)]
  simp
  omega

theorem mem_oneOf (cs : List Char) (x : Str) :
    x ∈ (oneOf cs).matches' ↔ ∃ c ∈ cs, x = [c] := by
  induction cs with
  | nil => simp [oneOf]
  | cons a t ih =>
    have : oneOf (a :: t) = char a + oneOf t := rfl
    rw [this, matches'_add, Language.mem_add, ih]
    simp only [matches'_char, List.mem_cons, exists_eq_or_imp]
    rfl

theorem mem_star_oneOf (cs : List Char) (x : Str) :
    x ∈ (star (oneOf cs)).matches' ↔ ∀ c ∈ x, c ∈ cs := by
  rw [matches'_star, Language.mem_kstar]
  constructor
  · rintro ⟨L, rfl, hL⟩ c hc
    rw [List.mem_flatten] at hc
    obtain ⟨y, hy, hcy⟩ := hc
    obtain ⟨d, hd, rfl⟩ := (mem_oneOf cs y).1 (hL y hy)
    simp at hcy
    exact hcy ▸ hd
  · intro h
    refine ⟨x.map (fun c => [c]), ?_, ?_⟩
    · clear h
      induction x with
      | nil => rfl
      | cons a t ih => simp [List.flatten] at ih ⊢; exact ih
    · intro y hy
      rw [List.mem_map] at hy
      obtain ⟨c, hc, rfl⟩ := hy
      exact (mem_oneOf cs [c]).2 ⟨c, h c hc, rfl⟩

theorem mem_many1_oneOf (cs : List Char) (x : Str) :
    x ∈ (many1 (oneOf cs)).matches' ↔ x ≠ [] ∧ ∀ c ∈ x, c ∈ cs := by
  unfold many1
  rw [matches'_mul, Language.mem_mul]
  constructor
  · rintro ⟨a, ha, b, hb, rfl⟩
    obtain ⟨c, hc, rfl⟩ := (mem_oneOf cs a).1 ha
    refine ⟨by simp, ?_⟩
    intro d hd
    simp at hd
    rcases hd with rfl | hd
    · exact hc
    · exact (mem_star_oneOf cs b).1 hb d hd
  · rintro ⟨hne, h⟩
    cases x with
    | nil => exact absurd rfl hne
    | cons c t =>
      refine ⟨[c], (mem_oneOf cs [c]).2 ⟨c, h c (by simp), rfl⟩, t, ?_, rfl⟩
      exact (mem_star_oneOf cs t).2 (fun d hd => h d (by simp [hd]))

theorem matchString_iff (p : RegularExpression Char) (s : Str) :
    MatchString p s = true ↔ s ∈ p.matches' := by
  unfold MatchString
  exact rmatch_iff_matches' p s

/-! ## Retailer rule -/

theorem asciiLettersAndDigits_eq :
    asciiLettersAndDigits = charRange 97 26 ++ charRange 65 26 ++ charRange 48 10 := by
  decide

theorem mem_asciiLettersAndDigits (c : Char) :
    c ∈ asciiLettersAndDigits ↔ (isLower c || isUpper c || isDigit c) = true := by
  rw [asciiLettersAndDigits_eq]
  simp only [List.mem_append, mem_charRange (show 97 + 26 ≤ 55296 by norm_num),
    mem_charRange (show 65 + 26 ≤ 55296 by norm_num),
    mem_charRange (show 48 + 10 ≤ 55296 by norm_num), isLower, isUpper, isDigit,
    Bool.or_eq_true, Bool.and_eq_true, decide_eq_true_eq]
  omega

theorem countOfAlphaNum_foldl (s : Str) (acc : Int) :
    s.foldl (fun points ch =>
        if isLower ch || isUpper ch || isDigit ch then points + 1 else points) acc
      = acc + (alphaNumCount s : Int) := by
  induction s generalizing acc with
  | nil => simp [alphaNumCount]
  | cons c t ih =>
    rw [List.foldl_cons, ih]
    by_cases hc : (isLower c || isUpper c || isDigit c) = true
    · have hm : c ∈ asciiLettersAndDigits := (mem_asciiLettersAndDigits c).2 hc
      simp only [alphaNumCount, hc, if_true, List.filter_cons, hm, decide_True, List.length_cons]
      push_cast
      ring
    · have hm : c ∉ asciiLettersAndDigits := fun h => hc ((mem_asciiLettersAndDigits c).1 h)
      simp only [alphaNumCount, hc, List.filter_cons, hm, decide_False]
      simp

/-- C8: for every retailer string `countOfAlphaNumInRetailer` returns exactly
the number of characters of the raw string that are ASCII letters or ASCII
digits; `"Target"` yields 6, and spaces, hyphens and ampersands add nothing. -/
theorem countOfAlphaNumInRetailer_eq_alphaNumCount :
    (∀ s : Str, countOfAlphaNumInRetailer s = (alphaNumCount s : Int)) ∧
      countOfAlphaNumInRetailer "Target".data = 6 ∧
      countOfAlphaNumInRetailer "M&M Corner-Market".data = 14 ∧
      countOfAlphaNumInRetailer " -&".data = 0 := by
  refine ⟨fun s => ?_, by decide, by decide, by decide⟩
  unfold countOfAlphaNumInRetailer
  rw [countOfAlphaNum_foldl]
  simp

theorem mem_timePattern (s : Str) :
    s ∈ timePattern.matches' ↔
      ∃ h m1 m2, ((∃ b ∈ charRange 48 4, h = ['2', b]) ∨
          (∃ a ∈ charRange 48 2, ∃ b ∈ digitChars, h = [a, b]) ∨ (∃ b ∈ digitChars, h = [b])) ∧
        m1 ∈ charRange 48 6 ∧ m2 ∈ digitChars ∧ s = h ++ [':', m1, m2] := by
  simp only [timePattern, opt, matches'_mul, matches'_add, matches'_char, matches'_epsilon,
    Language.mem_mul, Language.mem_add, mem_oneOf, Language.mem_one, Set.mem_singleton_iff]
  constructor
  · rintro ⟨_, ⟨_, (⟨_, rfl, _, ⟨b, hb, rfl⟩, rfl⟩ | ⟨_, (⟨a, ha, rfl⟩ | rfl), _, ⟨b, hb, rfl⟩, rfl⟩), _, rfl, rfl⟩,
      _, ⟨_, ⟨m1, h1, rfl⟩, _, ⟨m2, h2, rfl⟩, rfl⟩, rfl⟩
    · exact ⟨_, m1, m2, Or.inl ⟨b, hb, rfl⟩, h1, h2, by simp⟩
    · exact ⟨_, m1, m2, Or.inr (Or.inl ⟨a, ha, b, hb, rfl⟩), h1, h2, by simp⟩
    · exact ⟨_, m1, m2, Or.inr (Or.inr ⟨b, hb, rfl⟩), h1, h2, by simp⟩
  · rintro ⟨h, m1, m2, hh, h1, h2, rfl⟩
    refine ⟨h ++ [':'], ⟨h, ?_, [':'], rfl, rfl⟩, [m1, m2], ⟨[m1], ⟨m1, h1, rfl⟩, [m2], ⟨m2, h2, rfl⟩, rfl⟩, by simp⟩
    rcases hh with ⟨b, hb, rfl⟩ | ⟨a, ha, b, hb, rfl⟩ | ⟨b, hb, rfl⟩
    · exact Or.inl ⟨['2'], rfl, [b], ⟨b, hb, rfl⟩, rfl⟩
    · exact Or.inr ⟨[a], Or.inl ⟨a, ha, rfl⟩, [b], ⟨b, hb, rfl⟩, rfl⟩
    · exact Or.inr ⟨[], Or.inr rfl, [b], ⟨b, hb, rfl⟩, rfl⟩

theorem isDigit_iff (c : Char) : isDigit c = true ↔ 48 ≤ c.toNat ∧ c.toNat ≤ 57 := by
  simp [isDigit]

theorem ne_colon_of_isDigit {c : Char} (h : isDigit c = true) : c ≠ ':' := by
  rintro rfl
  revert h
  decide

theorem colon_not_digit : isDigit ':' = false := by decide

theorem parseClock_two {a b m1 m2 : Char} (ha : isDigit a = true) (hb : isDigit b = true)
    (h1 : isDigit m1 = true) (h2 : isDigit m2 = true)
    (hh : digitVal a * 10 + digitVal b < 24) (hm : digitVal m1 * 10 + digitVal m2 < 60) :
    parseClock [a, b, ':', m1, m2] =
      some ⟨digitVal a * 10 + digitVal b, digitVal m1 * 10 + digitVal m2⟩ := by
  simp [parseClock, getnum, skip, ha, hb, h1, h2, hh, hm, Nat.not_le.2 hh, Nat.not_le.2 hm]

theorem parseClock_one {b m1 m2 : Char} (hb : isDigit b = true)
    (h1 : isDigit m1 = true) (h2 : isDigit m2 = true)
    (hm : digitVal m1 * 10 + digitVal m2 < 60) :
    parseClock [b, ':', m1, m2] = some ⟨digitVal b, digitVal m1 * 10 + digitVal m2⟩ := by
  have hb9 : digitVal b < 24 := by
    have := (isDigit_iff b).1 hb
    unfold digitVal; omega
  simp [parseClock, getnum, skip, hb, h1, h2, hm, colon_not_digit, Nat.not_le.2 hb9,
    Nat.not_le.2 hm]

theorem char_eq_of_toNat {a : Char} {n : Nat} (h : a.toNat = n) : a = Char.ofNat n := by
  rw [← h, Char.ofNat_toNat]

theorem decimalValue_two (a b : Char) : decimalValue [a, b] = digitVal a * 10 + digitVal b := by
  simp [decimalValue]; ring

theorem timePattern_iff (s : Str) :
    MatchString timePattern s = true ↔ (isHHMM s || isHMM s) = true := by
  rw [matchString_iff, mem_timePattern]
  simp only [mem_digitChars, mem_charRange (show 48 + 4 ≤ 55296 by norm_num),
    mem_charRange (show 48 + 2 ≤ 55296 by norm_num),
    mem_charRange (show 48 + 6 ≤ 55296 by norm_num), isDigit_iff]
  constructor
  · rintro ⟨h, m1, m2, (⟨b, hb, rfl⟩ | ⟨a, ha, b, hb, rfl⟩ | ⟨b, hb, rfl⟩), h1, h2, rfl⟩
    · have h2c : isDigit '2' = true := by decide
      have h2v : digitVal '2' = 2 := by decide
      simp [isHHMM, isHMM, isDigit_iff, decimalValue_two, h2c, h2v, digitVal]
      omega
    · simp [isHHMM, isHMM, isDigit_iff, decimalValue_two, digitVal]
      omega
    · simp [isHHMM, isHMM, isDigit_iff, decimalValue_two, digitVal]
      omega
  · intro hs
    rcases s with _ | ⟨c1, _ | ⟨c2, _ | ⟨c3, _ | ⟨c4, _ | ⟨c5, _ | ⟨c6, t⟩⟩⟩⟩⟩⟩ <;>
      simp [isHHMM, isHMM, isDigit_iff, decimalValue_two, digitVal] at hs
    · obtain ⟨⟨⟨⟨h1, rfl⟩, h3⟩, h4⟩, h5⟩ := hs
      exact ⟨[c1], c3, c4, Or.inr (Or.inr ⟨c1, h1, rfl⟩), by omega, h4, rfl⟩
    · obtain ⟨⟨⟨⟨⟨⟨h1, h2⟩, rfl⟩, h4⟩, h5⟩, h6⟩, h7⟩ := hs
      by_cases hc : c1.toNat = 50
      · have : c1 = '2' := char_eq_of_toNat hc
        subst this
        exact ⟨['2', c2], c4, c5, Or.inl ⟨c2, by omega, rfl⟩, by omega, h5, rfl⟩
      · exact ⟨[c1, c2], c4, c5, Or.inr (Or.inl ⟨c1, by omega, c2, h2, rfl⟩), by omega, h5, rfl⟩

/-- C6: for every purchase time the validator accepts, `isTimeBetweenTwoAndFour`
returns 10 when the hour component is 14 or 15 and 0 otherwise. -/
theorem isTimeBetweenTwoAndFour_spec (t : Str) (h : MatchString timePattern t = true) :
    isTimeBetweenTwoAndFour t =
      if hourComponent t = 14 ∨ hourComponent t = 15 then 10 else 0 := by
  rw [timePattern_iff] at h
  rcases t with _ | ⟨c1, _ | ⟨c2, _ | ⟨c3, _ | ⟨c4, _ | ⟨c5, _ | ⟨c6, t⟩⟩⟩⟩⟩⟩ <;>
    simp [isHHMM, isHMM, decimalValue_two] at h
  · obtain ⟨⟨⟨⟨h1, rfl⟩, h3⟩, h4⟩, h5⟩ := h
    have hne : (c1 != ':') = true := by simpa using ne_colon_of_isDigit h1
    have hv : digitVal c1 ≤ 9 := by
      have := (isDigit_iff c1).1 h1
      unfold digitVal; omega
    unfold isTimeBetweenTwoAndFour
    rw [parseClock_one h1 h3 h4 h5]
    have hc : hourComponent [c1, ':', c3, c4] = digitVal c1 := by
      simp [hourComponent, List.takeWhile, hne, decimalValue]
    rw [hc]
    simp only [Clock.Hour]
    rw [if_neg (by omega), if_neg (by omega)]
  · obtain ⟨⟨⟨⟨⟨⟨h1, h2⟩, rfl⟩, h4⟩, h5⟩, h6⟩, h7⟩ := h
    have hne1 : (c1 != ':') = true := by simpa using ne_colon_of_isDigit h1
    have hne2 : (c2 != ':') = true := by simpa using ne_colon_of_isDigit h2
    unfold isTimeBetweenTwoAndFour
    rw [parseClock_two h1 h2 h4 h5 h6 h7]
    have hc : hourComponent [c1, c2, ':', c4, c5] = digitVal c1 * 10 + digitVal c2 := by
      simp [hourComponent, List.takeWhile, hne1, hne2, decimalValue]
      ring
    rw [hc]
    simp only [Clock.Hour]
    by_cases hx : 14 ≤ digitVal c1 * 10 + digitVal c2 ∧ digitVal c1 * 10 + digitVal c2 < 16
    · rw [if_pos hx, if_pos (by omega)]
    · rw [if_neg hx, if_neg (by omega)]

/-- C6, witness: `"14:00"` is accepted and yields 10 (lower boundary included),
`"16:00"` is accepted and yields 0 (upper boundary excluded). -/
theorem isTimeBetweenTwoAndFour_spec_witness :
    MatchString timePattern "14:00".data = true ∧
      isTimeBetweenTwoAndFour "14:00".data = 10 ∧
      MatchString timePattern "16:00".data = true ∧
      isTimeBetweenTwoAndFour "16:00".data = 0 :=
  ⟨by decide, (isTimeBetweenTwoAndFour_spec "14:00".data (by decide)).trans (by decide),
    by decide, (isTimeBetweenTwoAndFour_spec "16:00".data (by decide)).trans (by decide)⟩

/-! ## Date rule -/

theorem daysIn_eq_calendarDays (year month : Nat) (h1 : 1 ≤ month) (h2 : month ≤ 12) :
    daysIn month year = calendarDays year month := by
  have hleap : isLeap year = true ↔ ((year % 4 = 0 ∧ year % 100 ≠ 0) ∨ year % 400 = 0) := by
    simp [isLeap]
    omega
  interval_cases month <;> simp [daysIn, calendarDays]
  by_cases h : isLeap year = true
  · rw [if_pos h, if_pos (hleap.1 h)]
  · rw [if_neg h, if_neg (fun h2 => h (hleap.2 h2))]

theorem parseDate_eq_calendarDate (s : Str) :
    parseDate s = (calendarDate s).map (fun p => ⟨p.1, p.2.1, p.2.2⟩) := by
  rcases s with _ | ⟨c1, _ | ⟨c2, _ | ⟨c3, _ | ⟨c4, _ | ⟨c5, _ | ⟨c6, _ | ⟨c7, _ | ⟨c8,
    _ | ⟨c9, _ | ⟨c10, _ | ⟨c11, t⟩⟩⟩⟩⟩⟩⟩⟩⟩⟩⟩
  case cons.cons.cons.cons.cons.cons.cons.cons.cons.cons.nil =>
    simp only [parseDate, calendarDate]
    by_cases hy : (isDigit c1 && isDigit c2 && isDigit c3 && isDigit c4) = true
    · simp only [hy, if_true]
      by_cases h5 : c5 = '-'
      · subst h5
        by_cases h6 : isDigit c6 = true
        · by_cases h7 : isDigit c7 = true
          · by_cases h8 : c8 = '-'
            · subst h8
              by_cases h9 : isDigit c9 = true
              · by_cases h10 : isDigit c10 = true
                · simp only [Bool.and_eq_true] at hy
                  simp [skip, getnum, h6, h7, h9, h10, hy, decimalValue_two]
                  generalize decimalValue [c1, c2, c3, c4] = Y
                  by_cases hm : 1 ≤ digitVal c6 * 10 + digitVal c7 ∧
                      digitVal c6 * 10 + digitVal c7 ≤ 12
                  · rw [daysIn_eq_calendarDays _ _ hm.1 hm.2]
                    generalize calendarDays Y (digitVal c6 * 10 + digitVal c7) = N
                    split_ifs <;> first | rfl | omega
                  · rw [if_pos (by omega), if_neg (by omega)]
                · simp [skip, getnum, h6, h7, h9, h10]
              · simp [skip, getnum, h6, h7, h9]
            · simp [skip, getnum, h6, h7, h8]
          · simp [skip, getnum, h6, h7]
        · simp [skip, getnum, h6]
      · simp [skip, h5]
    · have hy' : (isDigit c1 && isDigit c2 && isDigit c3 && isDigit c4) = false := by
        simpa using hy
      simp only [hy', Bool.false_eq_true, if_false]
      simp only [Bool.and_eq_false_iff] at hy'
      have hn : ([c1, c2, c3, c4, c6, c7, c9, c10].all isDigit = true) → False := by
        simp only [List.all_cons, List.all_nil, Bool.and_true, Bool.and_eq_true]
        rintro ⟨a, b, c, d, -⟩
        simp [a, b, c, d] at hy'
      rw [if_neg (fun h => hn h.1)]
      rfl
  all_goals simp [parseDate, calendarDate, getnum, skip]
  all_goals intros
  all_goals subst_vars
  all_goals simp_all
  all_goals
    rename_i h1 h2
    obtain ⟨-, rfl⟩ := h1
    simp at h2

/-- C7: for every purchase date that is a valid `YYYY-MM-DD` calendar date,
`isDateOdd` returns 6 if the day-of-month is odd and 0 if it is even. -/
theorem isDateOdd_spec (s : Str) (year month day : Nat)
    (h : calendarDate s = some (year, month, day)) :
    isDateOdd s = if day % 2 = 1 then 6 else 0 := by
  unfold isDateOdd
  rw [parseDate_eq_calendarDate, h]
  simp only [Option.map_some', Date.Day]
  by_cases hd : day % 2 = 1
  · rw [if_pos hd, if_pos (by omega)]
  · rw [if_neg hd, if_neg (by omega)]

/-- C7, witness: 1 January 2022 is a calendar date with an odd day and earns 6. -/
theorem isDateOdd_spec_witness :
    calendarDate "2022-01-01".data = some (2022, 1, 1) ∧ isDateOdd "2022-01-01".data = 6 :=
  ⟨by decide, (isDateOdd_spec "2022-01-01".data 2022 1 1 (by decide)).trans (by decide)⟩

/-! ## Validation -/

theorem validateReceipt_eq (r : Receipt) :
    validateReceipt r =
      (MatchString retailerPattern r.Retailer && (parseDate r.PurchaseDate).isSome &&
        MatchString timePattern r.PurchaseTime && MatchString moneyPattern r.Total &&
        r.Items.all (fun item =>
          MatchString itemDescPattern item.ShortDescription && MatchString moneyPattern item.Price)) := by
  unfold validateReceipt
  have hitems : (fun item : Item =>
      !(!MatchString itemDescPattern item.ShortDescription || !MatchString moneyPattern item.Price))
      = (fun item : Item =>
        MatchString itemDescPattern item.ShortDescription && MatchString moneyPattern item.Price) := by
    funext item
    cases MatchString itemDescPattern item.ShortDescription <;>
      cases MatchString moneyPattern item.Price <;> rfl
  rw [hitems]
  cases MatchString retailerPattern r.Retailer <;> cases parseDate r.PurchaseDate <;>
    cases MatchString timePattern r.PurchaseTime <;> cases MatchString moneyPattern r.Total <;>
    simp

theorem mem_wordChars (c : Char) :
    c ∈ wordChars ↔ (isLower c || isUpper c || isDigit c || c == '_') = true := by
  unfold wordChars
  simp only [List.mem_append, mem_charRange (show 97 + 26 ≤ 55296 by norm_num),
    mem_charRange (show 65 + 26 ≤ 55296 by norm_num),
    mem_charRange (show 48 + 10 ≤ 55296 by norm_num), isLower, isUpper, isDigit,
    Bool.or_eq_true, Bool.and_eq_true, decide_eq_true_eq, List.mem_singleton, beq_iff_eq]
  have h95 : c = '_' ↔ c.toNat = 95 :=
    ⟨fun h => by rw [h]; decide, fun h => char_eq_of_toNat h⟩
  rw [h95]
  omega

theorem mem_spaceChars (c : Char) : c ∈ spaceChars ↔ isWhitespaceChar c = true := by
  simp only [spaceChars, isWhitespaceChar, List.mem_cons, List.mem_singleton, Bool.or_eq_true,
    beq_iff_eq, List.not_mem_nil, or_false]
  tauto

theorem retailerPattern_iff (s : Str) :
    MatchString retailerPattern s = true ↔ isRetailerTextOrUnderscore s = true := by
  rw [matchString_iff, retailerPattern, mem_many1_oneOf]
  have hc : ∀ c : Char, c ∈ wordChars ++ spaceChars ++ ['-', '&'] ↔
      (isRetailerChar c || c == '_') = true := by
    intro c
    simp only [List.mem_append, mem_wordChars, mem_spaceChars, isRetailerChar, List.mem_cons,
      List.mem_singleton, Bool.or_eq_true, beq_iff_eq, List.not_mem_nil, or_false]
    tauto
  simp only [hc, isRetailerTextOrUnderscore, Bool.and_eq_true, Bool.not_eq_true',
    List.all_eq_true, List.isEmpty_eq_false_iff_exists_mem]
  constructor
  · rintro ⟨hne, h⟩
    exact ⟨List.exists_mem_of_ne_nil s hne, h⟩
  · rintro ⟨⟨c, hc⟩, h⟩
    exact ⟨List.ne_nil_of_mem hc, h⟩

theorem validateReceipt_iff (r : Receipt) :
    validateReceipt r = true ↔
      MatchString retailerPattern r.Retailer = true ∧ (parseDate r.PurchaseDate).isSome = true ∧
        MatchString timePattern r.PurchaseTime = true ∧ MatchString moneyPattern r.Total = true ∧
        ∀ item ∈ r.Items, MatchString itemDescPattern item.ShortDescription = true ∧
          MatchString moneyPattern item.Price = true := by
  rw [validateReceipt_eq]
  simp only [Bool.and_eq_true, List.all_eq_true]
  tauto

/-- C9, counterexample: a retailer name with an underscore, which is neither a
letter, a digit, whitespace, a hyphen nor an ampersand, is accepted. -/
theorem validateReceipt_accepts_underscore :
    validateReceipt { targetReceipt with Retailer := "M_M".data } = true ∧
      validateReceipt { targetReceipt with Retailer := "Target".data } = true ∧
      isRetailerText "M_M".data = false := by
  decide

/-- C9 (as amended): for every receipt whose other fields are valid,
`validateReceipt` returns true if and only if the retailer is a non-empty
string composed only of ASCII letters, digits, underscores, whitespace
(space, tab, line feed, form feed, carriage return), hyphens and ampersands. -/
theorem validateReceipt_retailer_iff (r : Receipt)
    (hothers : validateReceipt { r with Retailer := "Target".data } = true) :
    validateReceipt r = true ↔ isRetailerTextOrUnderscore r.Retailer = true := by
  rw [validateReceipt_iff] at hothers ⊢
  rw [← retailerPattern_iff]
  obtain ⟨-, h2, h3, h4, h5⟩ := hothers
  exact ⟨fun h => h.1, fun h => ⟨h, h2, h3, h4, h5⟩⟩

/-- C9, witness: the receipt of scenario 1 with retailer `M_M`. -/
theorem validateReceipt_retailer_iff_witness :
    validateReceipt { { targetReceipt with Retailer := "M_M".data } with
        Retailer := "Target".data } = true ∧
      (validateReceipt { targetReceipt with Retailer := "M_M".data } = true ↔
        isRetailerTextOrUnderscore "M_M".data = true) :=
  ⟨by decide,
    validateReceipt_retailer_iff { targetReceipt with Retailer := "M_M".data } (by decide)⟩

/-- C10, counterexample: the purchase time `9:30`, whose hour has one digit, is
accepted although it is not of the form `HH:MM`. -/
theorem validateReceipt_accepts_one_digit_hour :
    validateReceipt { targetReceipt with PurchaseTime := "9:30".data } = true ∧
      validateReceipt { targetReceipt with PurchaseTime := "13:01".data } = true ∧
      isHHMM "9:30".data = false := by
  decide

/-- C10 (as amended): for every receipt whose other fields are valid,
`validateReceipt` returns true if and only if the purchase time has the form
`HH:MM` or `H:MM`: an hour 0–23 written with two digits or with one, a colon,
and a two-digit minute 00–59. -/
theorem validateReceipt_time_iff (r : Receipt)
    (hothers : validateReceipt { r with PurchaseTime := "13:01".data } = true) :
    validateReceipt r = true ↔ (isHHMM r.PurchaseTime || isHMM r.PurchaseTime) = true := by
  rw [validateReceipt_iff] at hothers ⊢
  rw [← timePattern_iff]
  obtain ⟨h1, h2, -, h4, h5⟩ := hothers
  exact ⟨fun h => h.2.2.1, fun h => ⟨h1, h2, h, h4, h5⟩⟩

/-- C10, witness: the receipt of scenario 1 bought at `9:30`. -/
theorem validateReceipt_time_iff_witness :
    validateReceipt { { targetReceipt with PurchaseTime := "9:30".data } with
        PurchaseTime := "13:01".data } = true ∧
      (validateReceipt { targetReceipt with PurchaseTime := "9:30".data } = true ↔
        (isHHMM "9:30".data || isHMM "9:30".data) = true) :=
  ⟨by decide,
    validateReceipt_time_iff { targetReceipt with PurchaseTime := "9:30".data } (by decide)⟩

/-! ## Lemmas on binary64 rounding -/

theorem bitLenAux_zero (fuel : Nat) : bitLenAux fuel 0 = 0 := by
  cases fuel <;> simp [bitLenAux]

theorem bitLenAux_spec (fuel n : Nat) (h : n ≤ fuel) :
    n < 2 ^ bitLenAux fuel n ∧ (n ≠ 0 → 2 ^ bitLenAux fuel n ≤ 2 * n) := by
  induction fuel generalizing n with
  | zero =>
    have : n = 0 := by omega
    subst this
    simp [bitLenAux]
  | succ f ih =>
    unfold bitLenAux
    by_cases hn : n = 0
    · subst hn
      simp
    · rw [if_neg hn]
      have hlt := ih (n / 2) (by omega)
      rw [pow_succ]
      constructor
      · have := hlt.1
        omega
      · intro _
        by_cases h2 : n / 2 = 0
        · rw [h2, bitLenAux_zero]
          omega
        · have := hlt.2 h2
          omega

theorem lt_two_pow_bitLen (n : Nat) : n < 2 ^ bitLen n :=
  (bitLenAux_spec n n (Nat.le_refl n)).1

theorem two_pow_bitLen_le (n : Nat) (h : n ≠ 0) : 2 ^ bitLen n ≤ 2 * n :=
  (bitLenAux_spec n n (Nat.le_refl n)).2 h

theorem bitLen_le_of_lt {n k : Nat} (h : n < 2 ^ k) : bitLen n ≤ k := by
  by_cases hn : n = 0
  · subst hn
    simp [bitLen, bitLenAux]
  · by_contra hc
    have h1 : 2 ^ (k + 1) ≤ 2 ^ bitLen n := Nat.pow_le_pow_right (by norm_num) (by omega)
    have h2 := two_pow_bitLen_le n hn
    rw [pow_succ] at h1
    omega

theorem lt_bitLen_of_le {n k : Nat} (h : 2 ^ k ≤ n) : k < bitLen n := by
  by_contra hc
  have h1 : 2 ^ bitLen n ≤ 2 ^ k := Nat.pow_le_pow_right (by norm_num) (by omega)
  have h2 := lt_two_pow_bitLen n
  omega

theorem roundHalfEven_bounds (n d : Nat) (hd : 0 < d) :
    2 * n ≤ 2 * (d * roundHalfEven n d) + d ∧ 2 * (d * roundHalfEven n d) ≤ 2 * n + d := by
  have hdm := Nat.div_add_mod n d
  have hr := Nat.mod_lt n hd
  unfold roundHalfEven
  simp only
  generalize n / d = q at hdm
  generalize n % d = r at hdm hr
  split_ifs <;> (try simp only [Nat.mul_add, Nat.mul_one]) <;> omega

theorem roundHalfEven_eq_of_near (n d j : Nat) (hd : 0 < d)
    (h1 : 2 * n < 2 * (d * j) + d) (h2 : 2 * (d * j) < 2 * n + d) :
    roundHalfEven n d = j := by
  obtain ⟨hb1, hb2⟩ := roundHalfEven_bounds n d hd
  generalize roundHalfEven n d = r at hb1 hb2
  rcases Nat.lt_trichotomy r j with hlt | heq | hgt
  · have : d * (r + 1) ≤ d * j := Nat.mul_le_mul_left d hlt
    rw [Nat.mul_add, Nat.mul_one] at this
    omega
  · exact heq
  · have : d * (j + 1) ≤ d * r := Nat.mul_le_mul_left d hgt
    rw [Nat.mul_add, Nat.mul_one] at this
    omega

theorem roundUnits_eq_of_near (n d k : Nat) (hd : 0 < d)
    (hdvd : 2 ^ (bitLen (n / d) - 53) ∣ k)
    (h1 : 2 * n < 2 * (d * k) + d * 2 ^ (bitLen (n / d) - 53))
    (h2 : 2 * (d * k) < 2 * n + d * 2 ^ (bitLen (n / d) - 53)) :
    roundUnits n d = k := by
  unfold roundUnits
  simp only
  generalize bitLen (n / d) - 53 = s at hdvd h1 h2
  obtain ⟨j, rfl⟩ := hdvd
  have hpos : 0 < d * 2 ^ s := Nat.mul_pos hd (Nat.two_pow_pos _)
  have e : d * 2 ^ s * j = d * (2 ^ s * j) := by ring
  rw [roundHalfEven_eq_of_near n (d * 2 ^ s) j hpos (by rw [e]; exact h1) (by rw [e]; exact h2)]
  ring

theorem roundUnits_exact (d k : Nat) (hd : 0 < d) (hdvd : 2 ^ (bitLen k - 53) ∣ k) :
    roundUnits (k * d) d = k := by
  have hq : k * d / d = k := Nat.mul_div_cancel k hd
  have hpos : 0 < d * 2 ^ (bitLen k - 53) := Nat.mul_pos hd (Nat.two_pow_pos _)
  apply roundUnits_eq_of_near _ _ _ hd
  · rw [hq]; exact hdvd
  · rw [hq, Nat.mul_comm k d]; omega
  · rw [hq, Nat.mul_comm k d]; omega

theorem roundUnits_bounds (n d : Nat) (hd : 0 < d) :
    2 * n ≤ 2 * (d * roundUnits n d) + d * 2 ^ (bitLen (n / d) - 53) ∧
      2 * (d * roundUnits n d) ≤ 2 * n + d * 2 ^ (bitLen (n / d) - 53) := by
  unfold roundUnits
  simp only
  generalize bitLen (n / d) - 53 = s
  have hpos : 0 < d * 2 ^ s := Nat.mul_pos hd (Nat.two_pow_pos _)
  have := roundHalfEven_bounds n (d * 2 ^ s) hpos
  have e : d * (roundHalfEven n (d * 2 ^ s) * 2 ^ s) = d * 2 ^ s * roundHalfEven n (d * 2 ^ s) := by
    ring
  rw [e]
  exact this

theorem dvd_of_significand (m t : Nat) (hm : m < 2 ^ 53) :
    2 ^ (bitLen (m * 2 ^ t) - 53) ∣ m * 2 ^ t := by
  have h1 : m * 2 ^ t < 2 ^ (53 + t) := by
    rw [pow_add]
    exact Nat.mul_lt_mul_of_pos_right hm (Nat.two_pow_pos _)
  have h2 := bitLen_le_of_lt h1
  exact Dvd.dvd.mul_left (pow_dvd_pow 2 (by omega)) m


/-! ## Lemmas on money strings -/

theorem not_isDigit_dot : isDigit '.' = false := by decide

theorem ne_dot_of_isDigit {c : Char} (h : isDigit c = true) : (c != '.') = true := by
  have : c ≠ '.' := by
    rintro rfl
    revert h
    decide
  simpa using this

theorem mem_moneyPattern (s : Str) :
    s ∈ moneyPattern.matches' ↔
      ∃ ip a b, ip ≠ [] ∧ (∀ c ∈ ip, isDigit c = true) ∧ isDigit a = true ∧ isDigit b = true ∧
        s = ip ++ ['.', a, b] := by
  simp only [moneyPattern, matches'_mul, Language.mem_mul, mem_many1_oneOf, mem_oneOf,
    matches'_char, Set.mem_singleton_iff, mem_digitChars]
  constructor
  · rintro ⟨_, ⟨ip, ⟨hne, hd⟩, _, rfl, rfl⟩, _, ⟨_, ⟨a, ha, rfl⟩, _, ⟨b, hb, rfl⟩, rfl⟩, rfl⟩
    exact ⟨ip, a, b, hne, hd, ha, hb, by simp⟩
  · rintro ⟨ip, a, b, hne, hd, ha, hb, rfl⟩
    exact ⟨ip ++ ['.'], ⟨ip, ⟨hne, hd⟩, ['.'], rfl, rfl⟩, [a, b],
      ⟨[a], ⟨a, ha, rfl⟩, [b], ⟨b, hb, rfl⟩, rfl⟩, by simp⟩

theorem takeWhile_digits_append (ip rest : Str) (hd : ∀ c ∈ ip, isDigit c = true) :
    (ip ++ '.' :: rest).takeWhile isDigit = ip ∧
      (ip ++ '.' :: rest).dropWhile isDigit = '.' :: rest := by
  induction ip with
  | nil => simp [List.takeWhile, List.dropWhile, not_isDigit_dot]
  | cons c t ih =>
    have hc := hd c (by simp)
    have ht := ih (fun x hx => hd x (by simp [hx]))
    simp [List.takeWhile, List.dropWhile, hc, ht.1, ht.2]

theorem takeWhile_ne_dot_append (ip rest : Str) (hd : ∀ c ∈ ip, isDigit c = true) :
    (ip ++ '.' :: rest).takeWhile (fun c => c != '.') = ip ∧
      (ip ++ '.' :: rest).dropWhile (fun c => c != '.') = '.' :: rest := by
  induction ip with
  | nil => simp [List.takeWhile, List.dropWhile]
  | cons c t ih =>
    have hc := ne_dot_of_isDigit (hd c (by simp))
    have ht := ih (fun x hx => hd x (by simp [hx]))
    simp [List.takeWhile, List.dropWhile, hc, ht.1, ht.2]

theorem filter_ne_dot_digits (ip : Str) (hd : ∀ c ∈ ip, isDigit c = true) :
    ip.filter (fun c => c != '.') = ip := by
  rw [List.filter_eq_self]
  intro c hc
  exact ne_dot_of_isDigit (hd c hc)

theorem decimalValue_append (xs ys : Str) :
    decimalValue (xs ++ ys) = decimalValue xs * 10 ^ ys.length + decimalValue ys := by
  unfold decimalValue
  have key : ∀ (ys : Str) (acc : Nat),
      List.foldl (fun acc c => 10 * acc + digitVal c) acc ys =
        acc * 10 ^ ys.length + List.foldl (fun acc c => 10 * acc + digitVal c) 0 ys := by
    intro ys
    induction ys with
    | nil => simp
    | cons c t ih =>
      intro acc
      rw [List.foldl_cons, ih, List.foldl_cons, ih (10 * 0 + digitVal c)]
      simp only [List.length_cons, pow_succ]
      ring
  rw [List.foldl_append, key]

theorem digitVal_le_nine {c : Char} (h : isDigit c = true) : digitVal c ≤ 9 := by
  have := (isDigit_iff c).1 h
  unfold digitVal
  omega

/-- The fraction of a money string in cents. -/
theorem money_parts (ip : Str) (a b : Char) (hd : ∀ c ∈ ip, isDigit c = true)
    (ha : isDigit a = true) (hb : isDigit b = true) :
    dollarsOf (ip ++ ['.', a, b]) = decimalValue ip ∧
      fractionDigits (ip ++ ['.', a, b]) = [a, b] ∧
      centsOf (ip ++ ['.', a, b]) = decimalValue ip * 100 + (digitVal a * 10 + digitVal b) := by
  refine ⟨?_, ?_, ?_⟩
  · unfold dollarsOf
    rw [(takeWhile_ne_dot_append ip [a, b] hd).1]
  · unfold fractionDigits
    rw [(takeWhile_ne_dot_append ip [a, b] hd).2]
    rfl
  · unfold centsOf
    have : (ip ++ ['.', a, b]).filter (fun c => c != '.') = ip ++ [a, b] := by
      rw [List.filter_append, filter_ne_dot_digits ip hd]
      simp [List.filter, ne_dot_of_isDigit ha, ne_dot_of_isDigit hb]
    rw [this, decimalValue_append, decimalValue_two]
    simp

theorem parseFloat_money (ip : Str) (a b : Char) (hne : ip ≠ [])
    (hd : ∀ c ∈ ip, isDigit c = true) (ha : isDigit a = true) (hb : isDigit b = true) :
    ParseFloat (ip ++ ['.', a, b]) =
      some ((F64.ofRat (centsOf (ip ++ ['.', a, b])) 100).elim .rangeErr .ok) := by
  have hs : splitDecimal (ip ++ ['.', a, b]) = some (ip, [a, b]) := by
    unfold splitDecimal
    simp only [(takeWhile_digits_append ip [a, b] hd).1, (takeWhile_digits_append ip [a, b] hd).2]
    simp [ha, hb, hne]
  have hc : decimalValue (ip ++ [a, b]) = centsOf (ip ++ ['.', a, b]) := by
    rw [(money_parts ip a b hd ha hb).2.2, decimalValue_append, decimalValue_two]
    simp
  have h100 : 10 ^ ([a, b] : Str).length = 100 := by simp
  unfold ParseFloat
  rw [hs]
  simp only []
  rw [hc, h100]
  generalize F64.ofRat (centsOf (ip ++ ['.', a, b])) 100 = o
  cases o <;> rfl


/-! ## Conversions to `int` in and out of range -/

theorem convertInt_of_toInt (conv : IntConv) (f : F64) (i : Int) (h : f.toInt = some i) :
    convertInt conv (some f) = i := by
  unfold convertInt
  rw [Option.some_bind, h]

theorem toInt_nonneg (f : F64) (i : Int) (h : f.toInt = some i) : 0 ≤ i := by
  unfold F64.toInt at h
  simp only at h
  split_ifs at h
  rw [← Option.some.inj h]
  exact Int.ofNat_nonneg _

theorem total_of_defined (conv : IntConv) (total : Str) (p : Int)
    (h : totalDefined total = some p) : isTotalRoundOrMultipleOfQuarter conv total = some p := by
  unfold totalDefined at h
  unfold isTotalRoundOrMultipleOfQuarter
  cases hp : ParseFloat total with
  | none => rw [hp] at h; exact Option.noConfusion h
  | some res =>
    cases res with
    | rangeErr => rw [hp] at h; exact h
    | ok f =>
      rw [hp] at h
      change (f.toInt).bind (fun i => (F64.ofInt i).bind (fun back => (f.mul f100).bind
        (fun scaled => (scaled.toInt).bind (fun j =>
          some ((if j.tmod 25 = 0 then (if f = back then (0 : Int) + 50 else 0) + 25
            else (if f = back then (0 : Int) + 50 else 0))))))) = some p at h
      show some (if (convertInt conv (f.mul f100)).tmod 25 = 0 then
          (if 0 ≤ convertInt conv (some f) ∧ F64.ofInt (convertInt conv (some f)) = some f
            then (0 : Int) + 50 else 0) + 25
        else (if 0 ≤ convertInt conv (some f) ∧ F64.ofInt (convertInt conv (some f)) = some f
            then (0 : Int) + 50 else 0)) = some p
      generalize hg : f.mul f100 = og at h ⊢
      cases hi : f.toInt with
      | none => rw [hi] at h; exact Option.noConfusion h
      | some i =>
        rw [hi, Option.some_bind] at h
        rw [convertInt_of_toInt conv f i hi]
        have hi0 := toInt_nonneg f i hi
        generalize F64.ofInt i = ob at h ⊢
        cases ob with
        | none => exact Option.noConfusion h
        | some back =>
          rw [Option.some_bind] at h
          cases og with
          | none => exact Option.noConfusion h
          | some g =>
            rw [Option.some_bind] at h
            cases hj : g.toInt with
            | none => rw [hj] at h; exact Option.noConfusion h
            | some j =>
              rw [hj, Option.some_bind] at h
              rw [convertInt_of_toInt conv g j hj, ← h]
              have e : (0 ≤ i ∧ some back = some f) ↔ f = back := by
                constructor
                · rintro ⟨-, h2⟩
                  exact (Option.some.inj h2).symm
                · rintro rfl
                  exact ⟨hi0, rfl⟩
              simp only [e]

theorem itemStep_of_defined (conv : IntConv) (points : Int) (item : Item) (q : Int)
    (h : itemStepDefined points item = some q) : itemStep conv points item = some q := by
  unfold itemStepDefined at h
  unfold itemStep
  by_cases hb : byteLen (TrimSpace item.ShortDescription) % 3 = 0
  · rw [if_pos hb] at h ⊢
    cases hp : ParseFloat item.Price with
    | none => rw [hp] at h; exact Option.noConfusion h
    | some res =>
      cases res with
      | rangeErr => rw [hp] at h; exact h
      | ok f =>
        rw [hp] at h
        change (f.mul f0_2).bind (fun product => (product.ceil.toInt).bind
          (fun n => some (wrapInt (points + n)))) = some q at h
        show some (wrapInt (points + convertInt conv ((f.mul f0_2).map F64.ceil))) = some q
        generalize f.mul f0_2 = og at h ⊢
        cases og with
        | none => exact Option.noConfusion h
        | some g =>
          rw [Option.some_bind] at h
          cases hn : g.ceil.toInt with
          | none => rw [hn] at h; exact Option.noConfusion h
          | some n =>
            rw [hn, Option.some_bind] at h
            rw [Option.map_some', convertInt_of_toInt conv g.ceil n hn]
            exact h
  · rw [if_neg hb] at h ⊢
    exact h

theorem foldlM_itemStep_of_defined (conv : IntConv) (items : List Item) (acc q : Int)
    (h : items.foldlM itemStepDefined acc = some q) :
    items.foldlM (itemStep conv) acc = some q := by
  induction items generalizing acc with
  | nil =>
    rw [List.foldlM_nil] at h ⊢
    exact h
  | cons x t ih =>
    rw [List.foldlM_cons] at h ⊢
    cases hx : itemStepDefined acc x with
    | none => rw [hx] at h; exact Option.noConfusion h
    | some a =>
      rw [hx] at h
      rw [itemStep_of_defined conv acc x a hx]
      exact ih a h

theorem pointsForItems_of_defined (conv : IntConv) (items : List Item) (q : Int)
    (h : pointsForItemsDefined items = some q) : pointsForItems conv items = some q :=
  foldlM_itemStep_of_defined conv items _ q h

theorem parseFloat_isSome (s : Str) (hm : MatchString moneyPattern s = true) :
    ∃ res, ParseFloat s = some res := by
  obtain ⟨ip, a, b, hne, hd, ha, hb, rfl⟩ := (mem_moneyPattern s).1 ((matchString_iff _ _).1 hm)
  exact ⟨_, parseFloat_money ip a b hne hd ha hb⟩

theorem total_isSome (conv : IntConv) (total : Str)
    (hm : MatchString moneyPattern total = true) :
    ∃ p, isTotalRoundOrMultipleOfQuarter conv total = some p := by
  obtain ⟨res, hres⟩ := parseFloat_isSome total hm
  unfold isTotalRoundOrMultipleOfQuarter
  rw [hres]
  cases res with
  | rangeErr => exact ⟨_, rfl⟩
  | ok f => exact ⟨_, rfl⟩

theorem itemStep_isSome (conv : IntConv) (points : Int) (item : Item)
    (hm : MatchString moneyPattern item.Price = true) :
    ∃ q, itemStep conv points item = some q := by
  obtain ⟨res, hres⟩ := parseFloat_isSome item.Price hm
  unfold itemStep
  rw [hres]
  by_cases hb : byteLen (TrimSpace item.ShortDescription) % 3 = 0
  · rw [if_pos hb]
    cases res with
    | rangeErr => exact ⟨_, rfl⟩
    | ok f => exact ⟨_, rfl⟩
  · rw [if_neg hb]
    exact ⟨_, rfl⟩

theorem foldlM_itemStep_isSome (conv : IntConv) (items : List Item) (acc : Int)
    (hm : ∀ item ∈ items, MatchString moneyPattern item.Price = true) :
    ∃ q, items.foldlM (itemStep conv) acc = some q := by
  induction items generalizing acc with
  | nil => exact ⟨acc, rfl⟩
  | cons x t ih =>
    obtain ⟨a, ha⟩ := itemStep_isSome conv acc x (hm x (by simp))
    rw [List.foldlM_cons, ha]
    exact ih a (fun i hi => hm i (by simp [hi]))

theorem pointsForItems_isSome (conv : IntConv) (items : List Item)
    (hm : ∀ item ∈ items, MatchString moneyPattern item.Price = true) :
    ∃ q, pointsForItems conv items = some q :=
  foldlM_itemStep_isSome conv items _ hm

/-! ## Lemmas on the total rule -/

theorem pow_shift_le (q : Nat) : 2 ^ (bitLen q - 53) ≤ q + 1 := by
  by_cases hq : q = 0
  · subst hq
    simp [bitLen, bitLenAux]
  · have h1 := two_pow_bitLen_le q hq
    have h2 : 2 ^ (bitLen q - 53) ≤ 2 ^ bitLen q := Nat.pow_le_pow_right (by norm_num) (by omega)
    by_cases hb : bitLen q ≤ 53
    · have : bitLen q - 53 = 0 := by omega
      rw [this]
      simp
    · have h3 : 2 ^ bitLen q = 2 ^ (bitLen q - 53) * 2 ^ 53 := by
        rw [← pow_add]
        congr 1
        omega
      have h4 : (2 : Nat) ^ 53 = 9007199254740992 := by norm_num
      rw [h4] at h3
      omega

theorem roundUnits_le (n d : Nat) (hd : 0 < d) : d * roundUnits n d ≤ 2 * n + d := by
  have hb := (roundUnits_bounds n d hd).2
  have hs := pow_shift_le (n / d)
  have h1 : d * 2 ^ (bitLen (n / d) - 53) ≤ d * (n / d + 1) := Nat.mul_le_mul_left d hs
  have h2 : d * (n / d) ≤ n := Nat.mul_div_le n d
  rw [Nat.mul_add, Nat.mul_one] at h1
  omega

theorem oneUnits_pos : 0 < oneUnits := Nat.two_pow_pos _

theorem oneUnits_def : oneUnits = 2 ^ 1074 := by
  rw [oneUnits]

theorem oneUnits_eq : oneUnits = 64 * 2 ^ 1068 := by
  rw [oneUnits_def, show (1074 : Nat) = 6 + 1068 from rfl, pow_add]
  congr 1

theorem lt_overflow_of_le {k : Nat} (h : k ≤ 2 ^ 64 * oneUnits) : k < 2 ^ 1024 * oneUnits := by
  have : 2 ^ 64 * oneUnits < 2 ^ 1024 * oneUnits :=
    Nat.mul_lt_mul_of_pos_right (Nat.pow_lt_pow_right (by decide) (by decide)) oneUnits_pos
  omega

theorem ofRat_eq_some (n d : Nat) (h : roundUnits (n * oneUnits) d ≤ 2 ^ 64 * oneUnits) :
    F64.ofRat n d = some ⟨roundUnits (n * oneUnits) d⟩ := by
  unfold F64.ofRat
  simp only
  rw [if_pos (lt_overflow_of_le h)]

theorem mul_eq_some (a b : F64) (h : roundUnits (a.units * b.units) oneUnits ≤ 2 ^ 64 * oneUnits) :
    a.mul b = some ⟨roundUnits (a.units * b.units) oneUnits⟩ := by
  unfold F64.mul
  simp only
  rw [if_pos (lt_overflow_of_le h)]

theorem toInt_eq_some (f : F64) (i : Nat) (hi : i < 2 ^ 63) (h1 : i * oneUnits ≤ f.units)
    (h2 : f.units < (i + 1) * oneUnits) : f.toInt = some (i : Int) := by
  have hdiv : f.units / oneUnits = i := by
    apply Nat.div_eq_of_lt_le
    · exact h1
    · exact h2
  unfold F64.toInt
  simp only [hdiv]
  rw [if_pos hi]

theorem ofInt_natCast (i : Nat) (hi : i < 2 ^ 53) : F64.ofInt (i : Int) = some ⟨i * oneUnits⟩ := by
  unfold F64.ofInt
  have hx : roundUnits (i * oneUnits * 1) 1 = i * oneUnits := by
    apply roundUnits_exact _ _ (by norm_num)
    unfold oneUnits
    exact dvd_of_significand i 1074 hi
  rw [Nat.mul_one] at hx
  have hle : i * oneUnits ≤ 2 ^ 64 * oneUnits := by
    apply Nat.mul_le_mul_right
    have : (2 : Nat) ^ 53 ≤ 2 ^ 64 := Nat.pow_le_pow_right (by norm_num) (by norm_num)
    omega
  rw [Int.toNat_ofNat, ofRat_eq_some _ _ (by rw [hx]; exact hle), hx]

theorem totalRule_eq (total : Str) (f back g : F64) (i j : Int)
    (hp : ParseFloat total = some (.ok f)) (hi : f.toInt = some i) (hb : F64.ofInt i = some back)
    (hg : f.mul f100 = some g) (hj : g.toInt = some j) :
    ∃ p, totalDefined total = some p ∧ (50 ≤ p ↔ f = back) ∧
      (f = back → j.tmod 25 = 0 → p = 75) := by
  unfold totalDefined
  rw [hp]
  simp only [hi, hb, hg, hj, Option.bind_eq_bind, Option.some_bind, Option.pure_def]
  by_cases h1 : f = back <;> by_cases h2 : j.tmod 25 = 0 <;> simp [h1, h2]


theorem toInt_of_lt (f : F64) (h : f.units < 2 ^ 63 * oneUnits) :
    f.toInt = some ((f.units / oneUnits : Nat) : Int) := by
  unfold F64.toInt
  simp only
  rw [if_pos ((Nat.div_lt_iff_lt_mul oneUnits_pos).2 h)]

theorem two_pow_55 : (2 : Nat) ^ 55 = 36028797018963968 := by norm_num

theorem two_pow_47 : (2 : Nat) ^ 47 = 140737488355328 := by norm_num

theorem two_pow_63 : (2 : Nat) ^ 63 = 9223372036854775808 := by norm_num

theorem two_pow_64 : (2 : Nat) ^ 64 = 18446744073709551616 := by norm_num

theorem tmod_hundred (D : Nat) : ((D * 100 : Nat) : Int).tmod 25 = 0 := by
  rw [Int.tmod_eq_emod (Int.ofNat_nonneg _) (by decide)]
  omega

theorem parse_round (D : Nat) (hD : D < 2 ^ 53) :
    F64.ofRat (D * 100) 100 = some ⟨D * oneUnits⟩ := by
  have hx : roundUnits (D * 100 * oneUnits) 100 = D * oneUnits := by
    rw [show D * 100 * oneUnits = D * oneUnits * 100 by ring]
    apply roundUnits_exact _ _ (by norm_num)
    unfold oneUnits
    exact dvd_of_significand D 1074 hD
  have hle : D * oneUnits ≤ 2 ^ 64 * oneUnits := by
    apply Nat.mul_le_mul_right
    have : (2 : Nat) ^ 53 ≤ 2 ^ 64 := Nat.pow_le_pow_right (by norm_num) (by norm_num)
    omega
  rw [ofRat_eq_some _ _ (by rw [hx]; exact hle), hx]

theorem total_round (total : Str) (D : Nat) (hD : D * 100 < 2 ^ 55)
    (hp : ParseFloat total = some ((F64.ofRat (D * 100) 100).elim .rangeErr .ok)) :
    totalDefined total = some 75 := by
  rw [two_pow_55] at hD
  have hD53 : D < 2 ^ 53 := by
    rw [show (2 : Nat) ^ 53 = 9007199254740992 by norm_num]
    omega
  rw [parse_round D hD53] at hp
  have hU := oneUnits_pos
  have hi : (⟨D * oneUnits⟩ : F64).toInt = some (D : Int) := by
    apply toInt_eq_some
    · rw [two_pow_63]; omega
    · exact Nat.le_refl _
    · exact Nat.mul_lt_mul_of_pos_right (by omega) hU
  have hb := ofInt_natCast D hD53
  have hx : roundUnits (D * oneUnits * (100 * oneUnits)) oneUnits = D * 100 * oneUnits := by
    rw [show D * oneUnits * (100 * oneUnits) = D * 100 * oneUnits * oneUnits by ring]
    apply roundUnits_exact _ _ hU
    have e : D * 100 * oneUnits = (D * 25) * 2 ^ (2 + 1074) := by
      rw [pow_add]
      unfold oneUnits
      generalize (2 : Nat) ^ 1074 = U
      ring
    rw [e]
    apply dvd_of_significand
    rw [show (2 : Nat) ^ 53 = 9007199254740992 by norm_num]
    omega
  have hle : D * 100 * oneUnits ≤ 2 ^ 64 * oneUnits := by
    apply Nat.mul_le_mul_right
    rw [two_pow_64]
    omega
  have hg : (⟨D * oneUnits⟩ : F64).mul f100 = some ⟨D * 100 * oneUnits⟩ := by
    rw [mul_eq_some _ _ (by simp only [f100]; rw [hx]; exact hle)]
    simp only [f100]
    rw [hx]
  have hj : (⟨D * 100 * oneUnits⟩ : F64).toInt = some ((D * 100 : Nat) : Int) := by
    apply toInt_eq_some
    · rw [two_pow_63]; omega
    · exact Nat.le_refl _
    · exact Nat.mul_lt_mul_of_pos_right (by omega) hU
  have h25 := tmod_hundred D
  obtain ⟨p, hp1, -, hp3⟩ := totalRule_eq total _ _ _ _ _ hp hi hb hg hj
  rw [hp1, hp3 rfl h25]

theorem parse_nonround (D F : Nat) (hD : D < 2 ^ 47) (hF1 : 1 ≤ F) (hF2 : F ≤ 99) :
    D * oneUnits < roundUnits ((D * 100 + F) * oneUnits) 100 ∧
      roundUnits ((D * 100 + F) * oneUnits) 100 < (D + 1) * oneUnits := by
  obtain ⟨hb1, hb2⟩ := roundUnits_bounds ((D * 100 + F) * oneUnits) 100 (by norm_num)
  have hq : (D * 100 + F) * oneUnits / 100 < 2 ^ (47 + 1074) := by
    apply Nat.div_lt_of_lt_mul
    rw [pow_add, ← oneUnits_def, ← Nat.mul_assoc]
    apply Nat.mul_lt_mul_of_pos_right _ oneUnits_pos
    omega
  have hs : 2 ^ (bitLen ((D * 100 + F) * oneUnits / 100) - 53) ≤ 2 ^ 1068 :=
    Nat.pow_le_pow_right (by norm_num) (by have := bitLen_le_of_lt hq; omega)
  generalize 2 ^ (bitLen ((D * 100 + F) * oneUnits / 100) - 53) = P at hb1 hb2 hs
  generalize roundUnits ((D * 100 + F) * oneUnits) 100 = k at hb1 hb2 ⊢
  rw [oneUnits_eq] at hb1 hb2 ⊢
  have hW : 0 < 2 ^ 1068 := Nat.two_pow_pos _
  generalize 2 ^ 1068 = W at hb1 hb2 hs hW ⊢
  have hY1 : W ≤ F * W := Nat.le_mul_of_pos_left W hF1
  have hY2 : F * W ≤ 99 * W := Nat.mul_le_mul_right W hF2
  have e1 : (D * 100 + F) * (64 * W) = 6400 * (D * W) + 64 * (F * W) := by ring
  have e2 : D * (64 * W) = 64 * (D * W) := by ring
  have e3 : (D + 1) * (64 * W) = 64 * (D * W) + 64 * W := by ring
  rw [e1] at hb1 hb2
  rw [e2, e3]
  generalize D * W = X at hb1 hb2 ⊢
  generalize F * W = Y at hb1 hb2 hY1 hY2
  omega


theorem total_nonround (total : Str) (D F : Nat) (hD : D < 2 ^ 47) (hF1 : 1 ≤ F) (hF2 : F ≤ 99)
    (hp : ParseFloat total = some ((F64.ofRat (D * 100 + F) 100).elim .rangeErr .ok)) :
    ∃ p, totalDefined total = some p ∧ p < 50 := by
  obtain ⟨hk1, hk2⟩ := parse_nonround D F hD hF1 hF2
  rw [two_pow_47] at hD
  have hU := oneUnits_pos
  have hDU : (D + 1) * oneUnits ≤ 2 ^ 47 * oneUnits := Nat.mul_le_mul_right _ (by rw [two_pow_47]; omega)
  have h4764 : 2 ^ 47 * oneUnits ≤ 2 ^ 64 * oneUnits :=
    Nat.mul_le_mul_right _ (Nat.pow_le_pow_right (by decide) (by decide))
  have hg0 := roundUnits_le (roundUnits ((D * 100 + F) * oneUnits) 100 * (100 * oneUnits)) oneUnits hU
  rw [ofRat_eq_some _ _ (by omega)] at hp
  generalize roundUnits ((D * 100 + F) * oneUnits) 100 = k at hk1 hk2 hp hg0
  have hi : (⟨k⟩ : F64).toInt = some (D : Int) :=
    toInt_eq_some _ D (by rw [two_pow_63]; omega) (by simp only; omega) hk2
  have hb := ofInt_natCast D (by rw [show (2 : Nat) ^ 53 = 9007199254740992 by norm_num]; omega)
  have hg1 : roundUnits (k * (100 * oneUnits)) oneUnits ≤ 200 * k + 1 := by
    apply Nat.le_of_mul_le_mul_left _ hU
    calc oneUnits * roundUnits (k * (100 * oneUnits)) oneUnits
        ≤ 2 * (k * (100 * oneUnits)) + oneUnits := hg0
      _ = oneUnits * (200 * k + 1) := by ring
  have hg2 : 200 * k + 1 ≤ 2 ^ 55 * oneUnits := by
    have : 200 * (2 ^ 47 * oneUnits) ≤ 2 ^ 55 * oneUnits - 1 := by
      rw [two_pow_47, two_pow_55]
      omega
    omega
  have h5563 : 2 ^ 55 * oneUnits < 2 ^ 63 * oneUnits :=
    Nat.mul_lt_mul_of_pos_right (Nat.pow_lt_pow_right (by decide) (by decide)) hU
  have h6364 : 2 ^ 63 * oneUnits ≤ 2 ^ 64 * oneUnits :=
    Nat.mul_le_mul_right _ (Nat.pow_le_pow_right (by decide) (by decide))
  have hg : (⟨k⟩ : F64).mul f100 = some ⟨roundUnits (k * (100 * oneUnits)) oneUnits⟩ :=
    mul_eq_some _ _ (by simp only [f100]; omega)
  have hj := toInt_of_lt ⟨roundUnits (k * (100 * oneUnits)) oneUnits⟩ (by simp only; omega)
  obtain ⟨p, hp1, hp2, -⟩ := totalRule_eq total _ _ _ _ _ hp hi hb hg hj
  refine ⟨p, hp1, ?_⟩
  by_contra hc
  have hfb : (⟨k⟩ : F64) = ⟨D * oneUnits⟩ := hp2.1 (by omega)
  have : k = D * oneUnits := congrArg F64.units hfb
  omega

theorem digitVal_eq_zero {c : Char} (h : isDigit c = true) : digitVal c = 0 ↔ c = '0' := by
  have hr := (isDigit_iff c).1 h
  unfold digitVal
  constructor
  · intro h0
    exact char_eq_of_toNat (n := 48) (by omega)
  · rintro rfl
    decide

theorem total_rule_round (total : Str) (hm : MatchString moneyPattern total = true)
    (hD : dollarsOf total * 100 < 2 ^ 55) (hf : fractionDigits total = ['0', '0']) :
    totalDefined total = some 75 := by
  obtain ⟨ip, a, b, hne, hd, ha, hb, rfl⟩ := (mem_moneyPattern total).1 ((matchString_iff _ _).1 hm)
  obtain ⟨h1, h2, h3⟩ := money_parts ip a b hd ha hb
  have hpf := parseFloat_money ip a b hne hd ha hb
  rw [h1] at hD
  rw [h2] at hf
  rw [h3] at hpf
  simp only [List.cons.injEq, and_true] at hf
  obtain ⟨rfl, rfl⟩ := hf
  have h0 : digitVal '0' * 10 + digitVal '0' = 0 := by decide
  rw [h0, Nat.add_zero] at hpf
  exact total_round _ (decimalValue ip) hD hpf

theorem total_rule_money (total : Str) (hm : MatchString moneyPattern total = true)
    (hD : dollarsOf total < 2 ^ 47) :
    ∃ p, totalDefined total = some p ∧
      (50 ≤ p ↔ fractionDigits total = ['0', '0']) ∧ (50 ≤ p → p = 75) := by
  by_cases hf : fractionDigits total = ['0', '0']
  · have h75 := total_rule_round total hm (by rw [two_pow_55]; rw [two_pow_47] at hD; omega) hf
    exact ⟨75, h75, by simp [hf], fun _ => rfl⟩
  · obtain ⟨ip, a, b, hne, hd, ha, hb, rfl⟩ :=
      (mem_moneyPattern total).1 ((matchString_iff _ _).1 hm)
    obtain ⟨h1, h2, h3⟩ := money_parts ip a b hd ha hb
    have hpf := parseFloat_money ip a b hne hd ha hb
    rw [h1] at hD
    rw [h2] at hf ⊢
    rw [h3] at hpf
    have hF : digitVal a * 10 + digitVal b ≤ 99 := by
      have := digitVal_le_nine ha
      have := digitVal_le_nine hb
      omega
    have h0 : digitVal a * 10 + digitVal b ≠ 0 := by
      intro h0
      have ha0 : a = '0' := (digitVal_eq_zero ha).1 (by omega)
      have hb0 : b = '0' := (digitVal_eq_zero hb).1 (by omega)
      exact hf (by rw [ha0, hb0])
    obtain ⟨p, hp1, hp2⟩ := total_nonround _ (decimalValue ip) _ hD (by omega) hF hpf
    exact ⟨p, hp1, ⟨fun h => by omega, fun h => absurd h hf⟩, fun h => by omega⟩

/-- C2, evaluation at the failing input: the total `2.01` is 201 cents, which
25 does not divide, and `isTotalRoundOrMultipleOfQuarter` still awards the 25
points, because `2.01 * 100` is `200.99999999999997` in binary64 and truncates
to 200. -/
theorem quarter_bonus_awarded_to_2_01 :
    MatchString moneyPattern "2.01".data = true ∧ centsOf "2.01".data % 25 = 1 ∧
      ∀ conv, isTotalRoundOrMultipleOfQuarter conv "2.01".data = some 25 :=
  ⟨by decide!, by decide!, fun conv => total_of_defined conv _ 25 (by decide!)⟩

/-- C3, evaluation at the failing input: the total `140737488355328.01` has
the money shape and the fraction digits `01`, so it is no round dollar amount,
and `isTotalRoundOrMultipleOfQuarter` awards the round-total bonus all the same
(the result is 75): the nearest binary64 to the total is the integer
140737488355328, which the test `totalFloat == float64(int(totalFloat))`
takes for the total itself. -/
theorem round_bonus_awarded_to_fraction_01 :
    MatchString moneyPattern "140737488355328.01".data = true ∧
      fractionDigits "140737488355328.01".data = ['0', '1'] ∧
      ∀ conv, isTotalRoundOrMultipleOfQuarter conv "140737488355328.01".data = some 75 :=
  ⟨by decide!, by decide!, fun conv => total_of_defined conv _ 75 (by decide!)⟩

/-- Where the round-total test is right: for every total of the money shape
whose value is below 2^47 = 140,737,488,355,328, the result is at least 50 if
and only if the two fraction digits are `00`. -/
theorem round_bonus_below_two_pow_47 (conv : IntConv) (total : Str)
    (hm : MatchString moneyPattern total = true) (hD : dollarsOf total < 2 ^ 47) :
    ∃ p, isTotalRoundOrMultipleOfQuarter conv total = some p ∧
      (50 ≤ p ↔ fractionDigits total = ['0', '0']) := by
  obtain ⟨p, h1, h2, -⟩ := total_rule_money total hm hD
  exact ⟨p, total_of_defined conv total p h1, h2⟩

/-- C4, evaluation at the failing input: the total `360287970189641.00` is a
round dollar amount, 36028797018964100 cents, a multiple of 25, and
`isTotalRoundOrMultipleOfQuarter` returns 50, not 75: the product
`totalFloat * 100` is no binary64 number and rounds to 36028797018964096,
which 25 does not divide, so the quarter bonus is withheld. -/
theorem round_total_without_quarter_bonus :
    MatchString moneyPattern "360287970189641.00".data = true ∧
      fractionDigits "360287970189641.00".data = ['0', '0'] ∧
      centsOf "360287970189641.00".data % 25 = 0 ∧
      ∀ conv, isTotalRoundOrMultipleOfQuarter conv "360287970189641.00".data = some 50 :=
  ⟨by decide!, by decide!, by decide!, fun conv => total_of_defined conv _ 50 (by decide!)⟩

/-- Where both tests are right: a total `<digits>.00` whose number of cents
is below 2^55 (a value up to 360,287,970,189,639) yields exactly 75, the total
`100.00` of scenario 2 among them, and a total of the money shape with a value
below 2^47 never earns the round-total bonus without the quarter bonus. -/
theorem round_total_below_two_pow_55 (conv : IntConv) (total : Str)
    (hm : MatchString moneyPattern total = true) (hD : dollarsOf total * 100 < 2 ^ 55) :
    (fractionDigits total = ['0', '0'] →
        isTotalRoundOrMultipleOfQuarter conv total = some 75) ∧
      (dollarsOf total < 2 ^ 47 → ∀ p, isTotalRoundOrMultipleOfQuarter conv total = some p →
        50 ≤ p → p = 75) ∧
      isTotalRoundOrMultipleOfQuarter conv "100.00".data = some 75 := by
  refine ⟨fun hf => total_of_defined conv total 75 (total_rule_round total hm hD hf),
    fun h47 p hp h50 => ?_, total_of_defined conv _ 75 (by decide!)⟩
  obtain ⟨q, hq1, -, hq3⟩ := total_rule_money total hm h47
  rw [total_of_defined conv total q hq1] at hp
  have : q = p := Option.some.inj hp
  subst this
  exact hq3 h50

/-! ## Lemmas on the item rule -/

theorem pow_shift_bound (q : Nat) (hq : 2 ^ 52 ≤ q) : 2 ^ 53 * 2 ^ (bitLen q - 53) ≤ 2 * q := by
  have h1 := lt_bitLen_of_le hq
  have h2 := two_pow_bitLen_le q (by have := Nat.two_pow_pos 52; omega)
  have h3 : 2 ^ bitLen q = 2 ^ 53 * 2 ^ (bitLen q - 53) := by
    rw [← pow_add]
    congr 1
    omega
  omega

theorem two_pow_mul_oneUnits (a : Nat) : 2 ^ a * oneUnits = 2 ^ (a + 1074) := by
  rw [oneUnits_def, pow_add]

/-- The significand of `0.2`. -/
theorem f0_2_units : f0_2.units = 7205759403792794 * 2 ^ 1019 := rfl

theorem oneUnits_eq_1019 : oneUnits = 36028797018963968 * 2 ^ 1019 := by
  rw [oneUnits_def, show (1074 : Nat) = 55 + 1019 from rfl, pow_add]
  congr 1

theorem ceil_toInt (g : F64) (m : Nat) (hm : m + 1 < 2 ^ 63) (h1 : m * oneUnits < g.units)
    (h2 : g.units ≤ (m + 1) * oneUnits) : g.ceil.toInt = some ((m + 1 : Nat) : Int) := by
  have hU := oneUnits_pos
  have e1 : (m + 1) * oneUnits = m * oneUnits + oneUnits := by ring
  have e2 : (m + 1 + 1) * oneUnits = m * oneUnits + oneUnits + oneUnits := by ring
  have hdiv : (g.units + (oneUnits - 1)) / oneUnits = m + 1 := by
    apply Nat.div_eq_of_lt_le
    · rw [e1]; omega
    · rw [e2]; rw [e1] at h2; omega
  apply toInt_eq_some _ _ hm
  · simp only [F64.ceil, hdiv]
    exact Nat.le_refl _
  · simp only [F64.ceil, hdiv]
    exact Nat.mul_lt_mul_of_pos_right (by omega) hU

theorem ceil_toInt_exact (m : Nat) (hm : m < 2 ^ 63) :
    (⟨m * oneUnits⟩ : F64).ceil.toInt = some (m : Int) := by
  have hU := oneUnits_pos
  have e1 : (m + 1) * oneUnits = m * oneUnits + oneUnits := by ring
  have hdiv : (m * oneUnits + (oneUnits - 1)) / oneUnits = m := by
    apply Nat.div_eq_of_lt_le
    · omega
    · rw [e1]; omega
  apply toInt_eq_some _ _ hm
  · simp only [F64.ceil, hdiv]
    exact Nat.le_refl _
  · simp only [F64.ceil, hdiv]
    exact Nat.mul_lt_mul_of_pos_right (by omega) hU

/-- A fifth of a price of `500 n` cents is the integer `n`, and the binary64
product with `0.2` is exactly `n`. -/
theorem fifth_exact (n : Nat) (hn : n < 2 ^ 50) :
    roundUnits (5 * n * oneUnits * f0_2.units) oneUnits = n * oneUnits := by
  have hU := oneUnits_pos
  have hV : 0 < 2 ^ 1019 := Nat.two_pow_pos _
  have e5 : 5 * f0_2.units = oneUnits + 2 ^ 1020 := by
    rw [f0_2_units, oneUnits_eq_1019, show (1020 : Nat) = 1019 + 1 from rfl, pow_succ]
    generalize 2 ^ 1019 = V
    omega
  have en : 5 * n * oneUnits * f0_2.units = (n * oneUnits + n * 2 ^ 1020) * oneUnits := by
    calc 5 * n * oneUnits * f0_2.units = n * oneUnits * (5 * f0_2.units) := by ring
      _ = (n * oneUnits + n * 2 ^ 1020) * oneUnits := by rw [e5]; ring
  have hq : 5 * n * oneUnits * f0_2.units / oneUnits = n * oneUnits + n * 2 ^ 1020 := by
    rw [en]
    exact Nat.mul_div_cancel _ hU
  by_cases h0 : n = 0
  · subst h0
    have h := roundUnits_exact oneUnits 0 hU (by simp [bitLen, bitLenAux])
    rw [Nat.zero_mul] at h
    rw [Nat.mul_zero, Nat.zero_mul, Nat.zero_mul]
    exact h
  · -- the quotient has exactly `bitLen n + 1074` bits
    have hL1 := lt_two_pow_bitLen n
    have hL2 := two_pow_bitLen_le n h0
    have hL50 : bitLen n ≤ 50 := bitLen_le_of_lt hn
    have hLpos : 1 ≤ bitLen n := by
      by_contra hc
      have : bitLen n = 0 := by omega
      rw [this] at hL1
      omega
    have hlow : 2 ^ (bitLen n + 1073) ≤ n * oneUnits + n * 2 ^ 1020 := by
      have : 2 ^ (bitLen n + 1073) = 2 ^ (bitLen n - 1) * oneUnits := by
        rw [two_pow_mul_oneUnits, show bitLen n - 1 + 1074 = bitLen n + 1073 by omega]
      rw [this]
      have h2 : 2 ^ bitLen n = 2 ^ (bitLen n - 1) * 2 := by
        rw [← pow_succ, show bitLen n - 1 + 1 = bitLen n by omega]
      have : 2 ^ (bitLen n - 1) * oneUnits ≤ n * oneUnits := Nat.mul_le_mul_right _ (by omega)
      omega
    have hhigh : n * oneUnits + n * 2 ^ 1020 < 2 ^ (bitLen n + 1074) := by
      have e1 : 2 ^ (bitLen n + 1074) = 2 ^ bitLen n * oneUnits := by
        rw [two_pow_mul_oneUnits]
      have e2 : oneUnits = 2 ^ 54 * 2 ^ 1020 := by
        rw [oneUnits_def, show (1074 : Nat) = 54 + 1020 from rfl, pow_add]
      have h3 : (n + 1) * oneUnits ≤ 2 ^ bitLen n * oneUnits := Nat.mul_le_mul_right _ hL1
      have h4 : n * 2 ^ 1020 < 2 ^ 54 * 2 ^ 1020 := by
        apply Nat.mul_lt_mul_of_pos_right _ (Nat.two_pow_pos _)
        have : (2 : Nat) ^ 50 < 2 ^ 54 := Nat.pow_lt_pow_right (by decide) (by decide)
        omega
      rw [e1]
      rw [Nat.add_mul, Nat.one_mul] at h3
      omega
    have hbits : bitLen (n * oneUnits + n * 2 ^ 1020) = bitLen n + 1074 := by
      have := lt_bitLen_of_le hlow
      have := bitLen_le_of_lt hhigh
      omega
    have hs : bitLen (n * oneUnits + n * 2 ^ 1020) - 53 = bitLen n + 1021 := by omega
    have hP : 2 ^ (bitLen n + 1021) = 2 ^ bitLen n * (2 * 2 ^ 1020) := by
      rw [show bitLen n + 1021 = bitLen n + (1020 + 1) from rfl, pow_add, pow_succ']
    apply roundUnits_eq_of_near _ _ _ hU
    · rw [hq, hs, oneUnits_def]
      exact Dvd.dvd.mul_left (pow_dvd_pow 2 (by omega)) n
    · rw [hq, hs, en, hP]
      have h5 : n * 2 ^ 1020 < 2 ^ bitLen n * 2 ^ 1020 :=
        Nat.mul_lt_mul_of_pos_right hL1 (Nat.two_pow_pos _)
      have e3 : 2 * ((n * oneUnits + n * 2 ^ 1020) * oneUnits)
          = 2 * (oneUnits * (n * oneUnits)) + oneUnits * (2 * (n * 2 ^ 1020)) := by ring
      have e4 : oneUnits * (2 ^ bitLen n * (2 * 2 ^ 1020))
          = oneUnits * (2 * (2 ^ bitLen n * 2 ^ 1020)) := by ring
      rw [e3, e4]
      have : oneUnits * (2 * (n * 2 ^ 1020)) < oneUnits * (2 * (2 ^ bitLen n * 2 ^ 1020)) :=
        Nat.mul_lt_mul_of_pos_left (by omega) hU
      omega
    · rw [hq, hs, en]
      have e3 : (n * oneUnits + n * 2 ^ 1020) * oneUnits
          = oneUnits * (n * oneUnits) + oneUnits * (n * 2 ^ 1020) := by ring
      rw [e3]
      have : 0 < oneUnits * 2 ^ (bitLen n + 1021) := Nat.mul_pos hU (Nat.two_pow_pos _)
      omega


theorem fifth_core (k1 k2 P1 P2 q1 q2 N R U : Nat)
    (h1 : 2 * (500 * N + R) ≤ 2 * (100 * k1) + 100 * P1)
    (h2 : 2 * (100 * k1) ≤ 2 * (500 * N + R) + 100 * P1)
    (h3 : 9007199254740992 * P1 ≤ 2 * q1)
    (h4 : 100 * q1 ≤ 500 * N + R)
    (h5 : 2 * 7205759403792794 * k1 ≤ 2 * 36028797018963968 * k2 + 36028797018963968 * P2)
    (h6 : 2 * 36028797018963968 * k2 ≤ 2 * 7205759403792794 * k1 + 36028797018963968 * P2)
    (h7 : 9007199254740992 * P2 ≤ 2 * q2)
    (h8 : 36028797018963968 * q2 ≤ 7205759403792794 * k1)
    (h9 : U ≤ R) (h10 : R ≤ 499 * U)
    (h11 : 500 * N + R < 3518437208883200 * U) :
    N < k2 ∧ k2 ≤ N + U := by
  omega

theorem two_pow_52 : (2 : Nat) ^ 52 = 4503599627370496 := by norm_num

theorem two_pow_53 : (2 : Nat) ^ 53 = 9007199254740992 := by norm_num

theorem two_pow_45 : (2 : Nat) ^ 45 = 35184372088832 := by norm_num

theorem two_pow_80_le_oneUnits : 2 ^ 80 ≤ oneUnits := by
  rw [oneUnits_def]
  exact Nat.pow_le_pow_right (by decide) (by decide)

/-- A fifth of a price of `500 n + r` cents, `0 < r < 500`, lies strictly
between `n` and `n + 1`, and so does the binary64 product with `0.2`, up to the
upper end. -/
theorem fifth_inexact (c n r : Nat) (hc : c = 500 * n + r) (hr1 : 1 ≤ r) (hr2 : r ≤ 499)
    (hlt : c < 100 * 2 ^ 45) :
    n * oneUnits < roundUnits (roundUnits (c * oneUnits) 100 * f0_2.units) oneUnits ∧
      roundUnits (roundUnits (c * oneUnits) 100 * f0_2.units) oneUnits ≤ n * oneUnits + oneUnits := by
  have hU := oneUnits_pos
  have hU80 := two_pow_80_le_oneUnits
  have h80 : (2 : Nat) ^ 80 = 1208925819614629174706176 := by norm_num
  rw [h80] at hU80
  rw [two_pow_45] at hlt
  have hV : 0 < 2 ^ 1019 := Nat.two_pow_pos _
  -- first rounding: the price
  obtain ⟨a1, a2⟩ := roundUnits_bounds (c * oneUnits) 100 (by norm_num)
  have hq1le : 100 * (c * oneUnits / 100) ≤ c * oneUnits := Nat.mul_div_le _ _
  have hcU : oneUnits ≤ c * oneUnits := Nat.le_mul_of_pos_left _ (by omega)
  have hq1 : 2 ^ 52 ≤ c * oneUnits / 100 := by
    rw [Nat.le_div_iff_mul_le (by norm_num), two_pow_52]
    omega
  have a3 := pow_shift_bound _ hq1
  rw [two_pow_53] at a3
  generalize 2 ^ (bitLen (c * oneUnits / 100) - 53) = P1 at a1 a2 a3
  generalize c * oneUnits / 100 = q1 at hq1le a3 hq1
  generalize hk1 : roundUnits (c * oneUnits) 100 = k1 at a1 a2 ⊢
  have hk1low : 1208925819614629174706176 ≤ 200 * k1 := by omega
  -- second rounding: the product
  obtain ⟨b1, b2⟩ := roundUnits_bounds (k1 * f0_2.units) oneUnits hU
  have hq2le : oneUnits * (k1 * f0_2.units / oneUnits) ≤ k1 * f0_2.units := Nat.mul_div_le _ _
  have hq2 : 2 ^ 52 ≤ k1 * f0_2.units / oneUnits := by
    rw [Nat.le_div_iff_mul_le hU, f0_2_units, oneUnits_eq_1019, two_pow_52]
    have e1 : 4503599627370496 * (36028797018963968 * 2 ^ 1019)
        = 2 ^ 1019 * (4503599627370496 * 36028797018963968) := by ring
    have e2 : k1 * (7205759403792794 * 2 ^ 1019) = 2 ^ 1019 * (7205759403792794 * k1) := by ring
    rw [e1, e2]
    apply Nat.mul_le_mul_left
    omega
  have b3 := pow_shift_bound _ hq2
  rw [two_pow_53] at b3
  generalize 2 ^ (bitLen (k1 * f0_2.units / oneUnits) - 53) = P2 at b1 b2 b3
  generalize k1 * f0_2.units / oneUnits = q2 at hq2le b3 hq2
  generalize roundUnits (k1 * f0_2.units) oneUnits = k2 at b1 b2 ⊢
  -- cancel the common factor 2^1019
  rw [f0_2_units, oneUnits_eq_1019] at b1 b2 hq2le
  have c1 : 2 * 7205759403792794 * k1 ≤ 2 * 36028797018963968 * k2 + 36028797018963968 * P2 := by
    apply Nat.le_of_mul_le_mul_left _ hV
    calc 2 ^ 1019 * (2 * 7205759403792794 * k1)
        = 2 * (k1 * (7205759403792794 * 2 ^ 1019)) := by ring
      _ ≤ 2 * (36028797018963968 * 2 ^ 1019 * k2) + 36028797018963968 * 2 ^ 1019 * P2 := b1
      _ = 2 ^ 1019 * (2 * 36028797018963968 * k2 + 36028797018963968 * P2) := by ring
  have c2 : 2 * 36028797018963968 * k2 ≤ 2 * 7205759403792794 * k1 + 36028797018963968 * P2 := by
    apply Nat.le_of_mul_le_mul_left _ hV
    calc 2 ^ 1019 * (2 * 36028797018963968 * k2)
        = 2 * (36028797018963968 * 2 ^ 1019 * k2) := by ring
      _ ≤ 2 * (k1 * (7205759403792794 * 2 ^ 1019)) + 36028797018963968 * 2 ^ 1019 * P2 := b2
      _ = 2 ^ 1019 * (2 * 7205759403792794 * k1 + 36028797018963968 * P2) := by ring
  have c3 : 36028797018963968 * q2 ≤ 7205759403792794 * k1 := by
    apply Nat.le_of_mul_le_mul_left _ hV
    calc 2 ^ 1019 * (36028797018963968 * q2)
        = 36028797018963968 * 2 ^ 1019 * q2 := by ring
      _ ≤ k1 * (7205759403792794 * 2 ^ 1019) := hq2le
      _ = 2 ^ 1019 * (7205759403792794 * k1) := by ring
  -- the price in units
  have e : c * oneUnits = 500 * (n * oneUnits) + r * oneUnits := by rw [hc]; ring
  have hR1 : oneUnits ≤ r * oneUnits := Nat.le_mul_of_pos_left _ hr1
  have hR2 : r * oneUnits ≤ 499 * oneUnits := Nat.mul_le_mul_right _ hr2
  have hA : c * oneUnits < 3518437208883200 * oneUnits := Nat.mul_lt_mul_of_pos_right hlt hU
  rw [e] at a1 a2 hq1le hA
  exact fifth_core k1 k2 P1 P2 q1 q2 (n * oneUnits) (r * oneUnits) oneUnits a1 a2 a3 hq1le
    c1 c2 b3 c3 hR1 hR2 hA


theorem ceilOfFifth_eq (price : Str) :
    ceilOfFifth price = (((centsOf price + 499) / 500 : Nat) : Int) := by
  unfold ceilOfFifth
  generalize centsOf price = c
  rw [Int.ceil_eq_iff]
  have h1 : 500 * ((c + 499) / 500) ≤ c + 499 := Nat.mul_div_le _ _
  have h2 : c + 499 < 500 * ((c + 499) / 500) + 500 := by
    have := Nat.lt_div_mul_add (a := c + 499) (b := 500) (by norm_num)
    omega
  generalize (c + 499) / 500 = z at h1 h2
  have h1q : (500 : ℚ) * z ≤ c + 499 := by exact_mod_cast h1
  have h2q : (c : ℚ) + 499 < 500 * z + 500 := by exact_mod_cast h2
  have h3 : (c : ℚ) ≤ 500 * z := by
    have : c ≤ 500 * z := by omega
    exact_mod_cast this
  have h4 : (500 : ℚ) * z < c + 500 := by
    have : 500 * z < c + 500 := by omega
    exact_mod_cast this
  constructor
  · push_cast
    linarith
  · push_cast
    linarith

theorem item_price_points (price : Str) (hm : MatchString moneyPattern price = true)
    (hD : dollarsOf price < 2 ^ 45) :
    ∃ f g, ParseFloat price = some (.ok f) ∧ f.mul f0_2 = some g ∧
      g.ceil.toInt = some (((centsOf price + 499) / 500 : Nat) : Int) := by
  obtain ⟨ip, a, b, hne, hd, ha, hb, rfl⟩ := (mem_moneyPattern price).1 ((matchString_iff _ _).1 hm)
  obtain ⟨h1, -, h3⟩ := money_parts ip a b hd ha hb
  have hpf := parseFloat_money ip a b hne hd ha hb
  rw [h1] at hD
  have hF : digitVal a * 10 + digitVal b ≤ 99 := by
    have := digitVal_le_nine ha
    have := digitVal_le_nine hb
    omega
  have hc : centsOf (ip ++ ['.', a, b]) < 100 * 2 ^ 45 := by
    rw [h3]
    omega
  generalize centsOf (ip ++ ['.', a, b]) = c at hpf hc ⊢
  have hU := oneUnits_pos
  have h45 := two_pow_45
  have h63 := two_pow_63
  have h64U : 2 ^ 63 * oneUnits ≤ 2 ^ 64 * oneUnits :=
    Nat.mul_le_mul_right _ (Nat.pow_le_pow_right (by decide) (by decide))
  by_cases hr : c % 500 = 0
  · -- the price is a multiple of five
    obtain ⟨n, rfl⟩ := Nat.dvd_of_mod_eq_zero hr
    have hn50 : n < 2 ^ 50 := by
      rw [show (2 : Nat) ^ 50 = 1125899906842624 by norm_num]
      omega
    have hk1 : roundUnits (500 * n * oneUnits) 100 = 5 * n * oneUnits := by
      rw [show 500 * n * oneUnits = 5 * n * oneUnits * 100 by ring]
      apply roundUnits_exact _ _ (by norm_num)
      rw [oneUnits_def]
      apply dvd_of_significand
      rw [two_pow_53]
      omega
    have hle1 : 5 * n * oneUnits ≤ 2 ^ 64 * oneUnits :=
      Nat.mul_le_mul_right _ (by rw [two_pow_64]; omega)
    rw [ofRat_eq_some _ _ (by rw [hk1]; exact hle1), hk1] at hpf
    have hk2 := fifth_exact n hn50
    have hle2 : n * oneUnits ≤ 2 ^ 64 * oneUnits :=
      Nat.mul_le_mul_right _ (by rw [two_pow_64]; omega)
    refine ⟨⟨5 * n * oneUnits⟩, ⟨n * oneUnits⟩, hpf, ?_, ?_⟩
    · rw [mul_eq_some _ _ (by simp only; rw [hk2]; exact hle2)]
      simp only
      rw [hk2]
    · have hceil := ceil_toInt_exact n (by omega)
      have e : n = (500 * n + 499) / 500 := by omega
      rw [hceil, ← e]
  · -- the price is not a multiple of five
    have hle1 : roundUnits (c * oneUnits) 100 ≤ 2 ^ 64 * oneUnits := by
      have h := roundUnits_le (c * oneUnits) 100 (by norm_num)
      have hcU : c * oneUnits ≤ 2 ^ 62 * oneUnits :=
        Nat.mul_le_mul_right _ (by rw [show (2 : Nat) ^ 62 = 4611686018427387904 by norm_num]; omega)
      have e : 2 ^ 64 * oneUnits = 4 * (2 ^ 62 * oneUnits) := by
        rw [show (2 : Nat) ^ 64 = 4 * 2 ^ 62 by norm_num, Nat.mul_assoc]
      rw [e]
      omega
    rw [ofRat_eq_some _ _ hle1] at hpf
    obtain ⟨hlo, hhi⟩ := fifth_inexact c (c / 500) (c % 500) (Nat.div_add_mod c 500).symm
      (by omega) (by omega) hc
    have hn : c / 500 + 1 < 2 ^ 63 := by omega
    have hle2 : roundUnits (roundUnits (c * oneUnits) 100 * f0_2.units) oneUnits
        ≤ 2 ^ 64 * oneUnits := by
      have : (c / 500 + 1) * oneUnits ≤ 2 ^ 63 * oneUnits := Nat.mul_le_mul_right _ (by omega)
      rw [Nat.add_mul, Nat.one_mul] at this
      omega
    refine ⟨_, _, hpf, mul_eq_some _ _ hle2, ?_⟩
    have hceil := ceil_toInt ⟨roundUnits (roundUnits (c * oneUnits) 100 * f0_2.units) oneUnits⟩
      (c / 500) hn hlo (by rw [Nat.add_mul, Nat.one_mul]; exact hhi)
    have e : c / 500 + 1 = (c + 499) / 500 := by omega
    rw [e] at hceil
    exact hceil

theorem utf8Size_of_ascii (c : Char) (h : c.toNat < 128) : c.utf8Size = 1 := by
  have hv : c.val ≤ 127 := by
    rw [UInt32.le_def]
    exact Nat.le_of_lt_succ h
  simp [Char.utf8Size, hv]

theorem byteLen_eq_length (s : Str) (h : ∀ c ∈ s, c.toNat < 128) : byteLen s = s.length := by
  unfold byteLen
  induction s with
  | nil => rfl
  | cons c t ih =>
    rw [List.map_cons, List.sum_cons, utf8Size_of_ascii c (h c (by simp)),
      ih (fun x hx => h x (by simp [hx])), List.length_cons]
    omega

theorem mem_of_mem_TrimSpace (s : Str) (c : Char) (h : c ∈ TrimSpace s) : c ∈ s := by
  unfold TrimSpace at h
  rw [List.mem_reverse] at h
  have h1 := (List.dropWhile_sublist isSpace).subset h
  rw [List.mem_reverse] at h1
  exact (List.dropWhile_sublist isSpace).subset h1

theorem char_eq_iff_toNat (c d : Char) : c = d ↔ c.toNat = d.toNat :=
  ⟨fun h => congrArg Char.toNat h, fun h => by
    rw [← Char.ofNat_toNat c, ← Char.ofNat_toNat d, h]⟩

theorem ascii_of_itemDesc (s : Str) (h : MatchString itemDescPattern s = true) :
    ∀ c ∈ s, c.toNat < 128 := by
  rw [matchString_iff, itemDescPattern, mem_many1_oneOf] at h
  intro c hc
  have hm := h.2 c hc
  simp only [List.mem_append, mem_wordChars, mem_spaceChars, List.mem_cons, List.mem_singleton,
    List.not_mem_nil, or_false, isLower, isUpper, isDigit, isWhitespaceChar, Bool.or_eq_true,
    Bool.and_eq_true, decide_eq_true_eq, beq_iff_eq, char_eq_iff_toNat] at hm
  simp only [Char.reduceToNat] at hm
  omega


theorem itemStep_of (points : Int) (item : Item) (f g : F64) (n : Int)
    (hlen : byteLen (TrimSpace item.ShortDescription) % 3 = 0)
    (h1 : ParseFloat item.Price = some (.ok f)) (h2 : f.mul f0_2 = some g)
    (h3 : g.ceil.toInt = some n) :
    itemStepDefined points item = some (wrapInt (points + n)) := by
  unfold itemStepDefined
  rw [if_pos hlen, h1]
  show (f.mul f0_2).bind (fun product => (product.ceil.toInt).bind
    (fun n => some (wrapInt (points + n)))) = _
  rw [h2, Option.some_bind, h3, Option.some_bind]

theorem itemStep_skip (points : Int) (item : Item)
    (hlen : ¬ byteLen (TrimSpace item.ShortDescription) % 3 = 0) :
    itemStepDefined points item = some points := by
  unfold itemStepDefined
  rw [if_neg hlen]

theorem itemStep_eq (points : Int) (item : Item)
    (hd : MatchString itemDescPattern item.ShortDescription = true)
    (hm : MatchString moneyPattern item.Price = true) (hD : dollarsOf item.Price < 2 ^ 45) :
    itemStepDefined points item =
      some (if (TrimSpace item.ShortDescription).length % 3 = 0
        then wrapInt (points + ceilOfFifth item.Price) else points) := by
  have hb : byteLen (TrimSpace item.ShortDescription) = (TrimSpace item.ShortDescription).length :=
    byteLen_eq_length _ (fun c hc =>
      ascii_of_itemDesc _ hd c (mem_of_mem_TrimSpace _ c hc))
  by_cases hq : (TrimSpace item.ShortDescription).length % 3 = 0
  · obtain ⟨f, g, h1, h2, h3⟩ := item_price_points item.Price hm hD
    rw [if_pos hq, ceilOfFifth_eq]
    exact itemStep_of points item f g _ (by rw [hb]; exact hq) h1 h2 h3
  · rw [if_neg hq]
    exact itemStep_skip points item (by rw [hb]; exact hq)

theorem wrapInt_of_range (x : Int) (h1 : 0 ≤ x) (h2 : x < 2 ^ 63) : wrapInt x = x := by
  unfold wrapInt
  have e63 : (2 : Int) ^ 63 = 9223372036854775808 := by norm_num
  have e64 : (2 : Int) ^ 64 = 18446744073709551616 := by norm_num
  rw [e63] at h2 ⊢
  rw [e64]
  omega

theorem wrapInt_add_wrapInt (x y : Int) : wrapInt (wrapInt x + y) = wrapInt (x + y) := by
  unfold wrapInt
  have e63 : (2 : Int) ^ 63 = 9223372036854775808 := by norm_num
  have e64 : (2 : Int) ^ 64 = 18446744073709551616 := by norm_num
  rw [e63, e64]
  omega

theorem ceilOfFifth_nonneg (price : Str) : 0 ≤ ceilOfFifth price := by
  rw [ceilOfFifth_eq]
  exact Int.ofNat_nonneg _

/-- The description-length part of `itemPoints`. -/
theorem foldlM_itemStep (items : List Item) (acc : Int)
    (hvalid : ∀ item ∈ items, MatchString itemDescPattern item.ShortDescription = true ∧
      MatchString moneyPattern item.Price = true ∧ dollarsOf item.Price < 2 ^ 45)
    (hacc : 0 ≤ acc)
    (hfit : acc + ((qualifyingItems items).map (fun item => ceilOfFifth item.Price)).sum < 2 ^ 63) :
    items.foldlM itemStepDefined acc =
      some (acc + ((qualifyingItems items).map (fun item => ceilOfFifth item.Price)).sum) := by
  induction items generalizing acc with
  | nil => simp [qualifyingItems]
  | cons x t ih =>
    obtain ⟨h1, h2, h3⟩ := hvalid x (by simp)
    have hnn : 0 ≤ ((qualifyingItems t).map (fun item => ceilOfFifth item.Price)).sum :=
      List.sum_nonneg (fun v hv => by
        rw [List.mem_map] at hv
        obtain ⟨i, -, rfl⟩ := hv
        exact ceilOfFifth_nonneg _)
    rw [List.foldlM_cons, itemStep_eq acc x h1 h2 h3]
    simp only [Option.bind_eq_bind, Option.some_bind]
    by_cases hq : (TrimSpace x.ShortDescription).length % 3 = 0
    · have hqi : qualifyingItems (x :: t) = x :: qualifyingItems t := by
        simp [qualifyingItems, hq]
      rw [hqi, List.map_cons, List.sum_cons] at hfit ⊢
      have hx := ceilOfFifth_nonneg x.Price
      rw [if_pos hq, wrapInt_of_range _ (by omega) (by omega),
        ih _ (fun i hi => hvalid i (by simp [hi])) (by omega) (by omega)]
      congr 1
      ring
    · have hqi : qualifyingItems (x :: t) = qualifyingItems t := by
        simp [qualifyingItems, hq]
      rw [hqi] at hfit ⊢
      rw [if_neg hq, ih _ (fun i hi => hvalid i (by simp [hi])) hacc hfit]

theorem pointsForItems_eq (items : List Item)
    (hvalid : ∀ item ∈ items, MatchString itemDescPattern item.ShortDescription = true ∧
      MatchString moneyPattern item.Price = true ∧ dollarsOf item.Price < 2 ^ 45)
    (hfit : itemPoints items < 2 ^ 63) :
    pointsForItemsDefined items = some (itemPoints items) := by
  unfold pointsForItemsDefined
  have e : ((items.length : Int) / 2) * 5 = 5 * ((items.length / 2 : Nat) : Int) := by
    push_cast
    ring
  simp only [e]
  unfold itemPoints at hfit ⊢
  exact foldlM_itemStep items _ hvalid (by positivity) hfit

theorem itemPoints_eq_natCast (items : List Item) :
    itemPoints items =
      ((5 * (items.length / 2) +
        ((qualifyingItems items).map (fun item => (centsOf item.Price + 499) / 500)).sum : Nat) :
        Int) := by
  unfold itemPoints
  have h : ∀ l : List Item, (l.map (fun item => ceilOfFifth item.Price)).sum =
      (((l.map (fun item => (centsOf item.Price + 499) / 500)).sum : Nat) : Int) := by
    intro l
    induction l with
    | nil => rfl
    | cons x t ih =>
      rw [List.map_cons, List.sum_cons, ih, ceilOfFifth_eq, List.map_cons, List.sum_cons]
      push_cast
      rfl
  rw [h]
  push_cast
  rfl

theorem items_valid_of_validateReceipt (r : Receipt) (hr : validateReceipt r = true)
    (hprice : ∀ item ∈ r.Items, dollarsOf item.Price < 2 ^ 45) :
    ∀ item ∈ r.Items, MatchString itemDescPattern item.ShortDescription = true ∧
      MatchString moneyPattern item.Price = true ∧ dollarsOf item.Price < 2 ^ 45 := by
  intro item hi
  obtain ⟨h1, h2⟩ := ((validateReceipt_iff r).1 hr).2.2.2.2 item hi
  exact ⟨h1, h2, hprice item hi⟩

/-- C5, counterexample: for a valid receipt with the single item `Gum` priced
`140737488355330.01`, a fifth of the price is 28147497671066.002 and its
ceiling 28147497671067, and `pointsForItems` returns 28147497671066: the price
parses to the binary64 number 140737488355330. -/
theorem pointsForItems_misses_ceiling :
    validateReceipt
        { targetReceipt with Items := [⟨"Gum".data, "140737488355330.01".data⟩] } = true ∧
      (∀ conv, pointsForItems conv [⟨"Gum".data, "140737488355330.01".data⟩] =
        some 28147497671066) ∧
      itemPoints [⟨"Gum".data, "140737488355330.01".data⟩] = 28147497671067 := by
  refine ⟨by decide!, fun conv => pointsForItems_of_defined conv _ _ (by decide!), ?_⟩
  rw [itemPoints_eq_natCast]
  decide!

/-- C5 (as amended): for every receipt accepted by `validateReceipt` whose item
prices are all below 2^45 = 35,184,372,088,832 and whose point total fits a
64-bit integer, `pointsForItems` equals 5 × (number of items div 2) plus the
sum, over exactly the items whose trimmed short description has a character
length divisible by 3, of the true ceiling of price × 0.2. -/
theorem pointsForItems_eq_itemPoints (conv : IntConv) (r : Receipt)
    (hr : validateReceipt r = true)
    (hprice : ∀ item ∈ r.Items, dollarsOf item.Price < 2 ^ 45)
    (hfit : itemPoints r.Items < 2 ^ 63) :
    pointsForItems conv r.Items = some (itemPoints r.Items) :=
  pointsForItems_of_defined conv r.Items _
    (pointsForItems_eq r.Items (items_valid_of_validateReceipt r hr hprice) hfit)

/-- C5, witness: a valid receipt whose only item has a 6-character description
and the price `10.00`; the item contributes 2. -/
theorem pointsForItems_eq_itemPoints_witness :
    validateReceipt { targetReceipt with Items := [⟨"Crisps".data, "10.00".data⟩] } = true ∧
      (∀ conv, pointsForItems conv [⟨"Crisps".data, "10.00".data⟩] =
        some (itemPoints [⟨"Crisps".data, "10.00".data⟩])) ∧
      itemPoints [⟨"Crisps".data, "10.00".data⟩] = 2 :=
  ⟨by decide!,
    fun conv => pointsForItems_eq_itemPoints conv
      { targetReceipt with Items := [⟨"Crisps".data, "10.00".data⟩] }
      (by decide!) (by decide!) (by rw [itemPoints_eq_natCast]; decide!),
    by rw [itemPoints_eq_natCast]; decide!⟩

/-! ## The handler `getPoints` -/

theorem score_eq (conv : IntConv) (r : Receipt) (a b : Int)
    (ha : isTotalRoundOrMultipleOfQuarter conv r.Total = some a)
    (hb : pointsForItems conv r.Items = some b) :
    score conv r = some (wrapInt (countOfAlphaNumInRetailer r.Retailer + a + b +
      isDateOdd r.PurchaseDate + isTimeBetweenTwoAndFour r.PurchaseTime)) := by
  unfold score
  show (isTotalRoundOrMultipleOfQuarter conv r.Total).bind (fun a =>
    (pointsForItems conv r.Items).bind (fun b =>
      some (wrapInt (wrapInt (wrapInt (wrapInt (countOfAlphaNumInRetailer r.Retailer + a) + b) +
        isDateOdd r.PurchaseDate) + isTimeBetweenTwoAndFour r.PurchaseTime)))) = _
  rw [ha, Option.some_bind, hb, Option.some_bind]
  generalize countOfAlphaNumInRetailer r.Retailer = c
  generalize isDateOdd r.PurchaseDate = d
  generalize isTimeBetweenTwoAndFour r.PurchaseTime = t
  rw [wrapInt_add_wrapInt (c + a) b, wrapInt_add_wrapInt (c + a + b) d,
    wrapInt_add_wrapInt (c + a + b + d) t]

theorem score_of_defined (conv : IntConv) (r : Receipt) (a b : Int)
    (ha : totalDefined r.Total = some a) (hb : pointsForItemsDefined r.Items = some b) :
    score conv r = some (wrapInt (countOfAlphaNumInRetailer r.Retailer + a + b +
      isDateOdd r.PurchaseDate + isTimeBetweenTwoAndFour r.PurchaseTime)) :=
  score_eq conv r a b (total_of_defined conv _ a ha) (pointsForItems_of_defined conv _ b hb)

theorem score_of_valid (conv : IntConv) (r : Receipt) (hv : validateReceipt r = true) :
    ∃ a b, isTotalRoundOrMultipleOfQuarter conv r.Total = some a ∧
      pointsForItems conv r.Items = some b ∧
      score conv r = some (wrapInt (countOfAlphaNumInRetailer r.Retailer + a + b +
        isDateOdd r.PurchaseDate + isTimeBetweenTwoAndFour r.PurchaseTime)) := by
  obtain ⟨-, -, -, h4, h5⟩ := (validateReceipt_iff r).1 hv
  obtain ⟨a, ha⟩ := total_isSome conv r.Total h4
  obtain ⟨b, hb⟩ := pointsForItems_isSome conv r.Items (fun item hi => (h5 item hi).2)
  exact ⟨a, b, ha, hb, score_eq conv r a b ha hb⟩

theorem getPoints_of_score (conv : IntConv) (receipts : Store) (id : Str) (r : Receipt) (p : Int)
    (hstored : receipts id = some r) (hs : score conv r = some p) :
    getPoints conv receipts id = some (PointsResponse.points p) := by
  unfold getPoints
  rw [hstored]
  show (score conv r).map PointsResponse.points = _
  rw [hs]
  rfl

theorem ceilOfFifth_lt (price : Str) (hm : MatchString moneyPattern price = true)
    (hD : dollarsOf price < 2 ^ 45) : ceilOfFifth price < 2 ^ 45 := by
  rw [ceilOfFifth_eq]
  obtain ⟨ip, a, b, hne, hd, ha, hb, rfl⟩ := (mem_moneyPattern price).1 ((matchString_iff _ _).1 hm)
  obtain ⟨h1, -, h3⟩ := money_parts ip a b hd ha hb
  rw [h1] at hD
  rw [h3]
  have := digitVal_le_nine ha
  have := digitVal_le_nine hb
  have h45 := two_pow_45
  have : (decimalValue ip * 100 + (digitVal a * 10 + digitVal b) + 499) / 500 < 2 ^ 45 := by
    rw [h45] at hD ⊢
    omega
  exact_mod_cast this

/-- C1, counterexample: the receipt of scenario 1 with the items `Gum` at
`140737488355330.01` and `Pop` at `5.00` is valid and both descriptions have
three characters; the claimed total is 17 + 28147497671067 + 1, and `getPoints`
answers 28147497671084. -/
theorem getPoints_misses_claimed_total :
    validateReceipt { targetReceipt with
        Items := [⟨"Gum".data, "140737488355330.01".data⟩, ⟨"Pop".data, "5.00".data⟩] } = true ∧
      (∀ conv, getPoints conv (singletonStore "r1".data { targetReceipt with
        Items := [⟨"Gum".data, "140737488355330.01".data⟩, ⟨"Pop".data, "5.00".data⟩] })
        "r1".data = some (PointsResponse.points 28147497671084)) ∧
      6 + 0 + 5 + 6 + 0 + ceilOfFifth "140737488355330.01".data + ceilOfFifth "5.00".data
        = 28147497671085 := by
  refine ⟨by decide!, fun conv => ?_, ?_⟩
  · exact getPoints_of_score conv _ _ { targetReceipt with
        Items := [⟨"Gum".data, "140737488355330.01".data⟩, ⟨"Pop".data, "5.00".data⟩] } _
      (by decide)
      ((score_of_defined conv { targetReceipt with
        Items := [⟨"Gum".data, "140737488355330.01".data⟩, ⟨"Pop".data, "5.00".data⟩] }
        0 28147497671072 (by decide!) (by decide!)).trans (by decide!))
  · rw [ceilOfFifth_eq, ceilOfFifth_eq]
    decide!

/-- C1 (as amended): for a stored receipt that `validateReceipt` accepts, as
every stored receipt is, each of the rule functions returns a value and the
points returned by `getPoints` are the sum of the five rule functions, as a
64-bit integer; and when the receipt has the retailer `Target`, total `35.35`,
date `2022-01-01`, time `13:01` and exactly two items whose trimmed
description lengths are divisible by 3 and whose prices are below 2^45, the
points equal 6 + 0 + 5 + 6 + 0 + ceil(p1 × 0.2) + ceil(p2 × 0.2). -/
theorem getPoints_sum_of_rules (conv : IntConv) (receipts : Store) (id : Str) (r : Receipt)
    (hstored : receipts id = some r) (hv : validateReceipt r = true) :
    (∃ a b, isTotalRoundOrMultipleOfQuarter conv r.Total = some a ∧
      pointsForItems conv r.Items = some b ∧
      getPoints conv receipts id = some (PointsResponse.points (wrapInt
        (countOfAlphaNumInRetailer r.Retailer + a + b + isDateOdd r.PurchaseDate +
          isTimeBetweenTwoAndFour r.PurchaseTime)))) ∧
    (∀ i1 i2, r.Retailer = "Target".data → r.Total = "35.35".data →
      r.PurchaseDate = "2022-01-01".data → r.PurchaseTime = "13:01".data → r.Items = [i1, i2] →
      (TrimSpace i1.ShortDescription).length % 3 = 0 →
      (TrimSpace i2.ShortDescription).length % 3 = 0 →
      dollarsOf i1.Price < 2 ^ 45 → dollarsOf i2.Price < 2 ^ 45 →
      getPoints conv receipts id = some (PointsResponse.points
        (6 + 0 + 5 + 6 + 0 + ceilOfFifth i1.Price + ceilOfFifth i2.Price))) := by
  constructor
  · obtain ⟨a, b, ha, hb, hs⟩ := score_of_valid conv r hv
    exact ⟨a, b, ha, hb, getPoints_of_score conv receipts id r _ hstored hs⟩
  intro i1 i2 hret htot hdate htime hitems hq1 hq2 hp1 hp2
  have hvi := ((validateReceipt_iff r).1 hv).2.2.2.2
  rw [hitems] at hvi
  obtain ⟨hd1, hm1⟩ := hvi i1 (by simp)
  obtain ⟨hd2, hm2⟩ := hvi i2 (by simp)
  have hc1 := ceilOfFifth_lt i1.Price hm1 hp1
  have hc2 := ceilOfFifth_lt i2.Price hm2 hp2
  have hn1 := ceilOfFifth_nonneg i1.Price
  have hn2 := ceilOfFifth_nonneg i2.Price
  have h45 : (2 : Int) ^ 45 = 35184372088832 := by norm_num
  have h63 : (2 : Int) ^ 63 = 9223372036854775808 := by norm_num
  rw [h45] at hc1 hc2
  have hip : itemPoints [i1, i2] = 5 + ceilOfFifth i1.Price + ceilOfFifth i2.Price := by
    simp [itemPoints, qualifyingItems, hq1, hq2]
    ring
  have hitemsEq : pointsForItemsDefined r.Items =
      some (5 + ceilOfFifth i1.Price + ceilOfFifth i2.Price) := by
    rw [hitems, ← hip]
    apply pointsForItems_eq
    · intro item hi
      simp only [List.mem_cons, List.mem_singleton, List.not_mem_nil, or_false] at hi
      rcases hi with rfl | rfl
      · exact ⟨hd1, hm1, hp1⟩
      · exact ⟨hd2, hm2, hp2⟩
    · rw [hip, h63]
      omega
  have htotal : totalDefined r.Total = some 0 := by
    rw [htot]
    decide!
  have hs := score_of_defined conv r 0 _ htotal hitemsEq
  have hcount : countOfAlphaNumInRetailer r.Retailer = 6 := by rw [hret]; decide
  have hday : isDateOdd r.PurchaseDate = 6 := by rw [hdate]; decide
  have hclock : isTimeBetweenTwoAndFour r.PurchaseTime = 0 := by rw [htime]; decide
  rw [hcount, hday, hclock, wrapInt_of_range _ (by omega) (by rw [h63]; omega)] at hs
  have e : (6 : Int) + 0 + (5 + ceilOfFifth i1.Price + ceilOfFifth i2.Price) + 6 + 0
      = 6 + 0 + 5 + 6 + 0 + ceilOfFifth i1.Price + ceilOfFifth i2.Price := by ring
  rw [e] at hs
  exact getPoints_of_score conv receipts id r _ hstored hs

/-- C1, witness: scenario 1 stored under `r1`, with the items `Gum` at `6.49`
and `Crisps` at `10.00`, yields 6 + 0 + 5 + 6 + 0 + 2 + 2 = 21 points. -/
theorem getPoints_sum_of_rules_witness :
    singletonStore "r1".data scenario1Receipt "r1".data = some scenario1Receipt ∧
      validateReceipt scenario1Receipt = true ∧
      (∀ conv, getPoints conv (singletonStore "r1".data scenario1Receipt) "r1".data =
        some (PointsResponse.points (6 + 0 + 5 + 6 + 0 + ceilOfFifth "6.49".data +
          ceilOfFifth "10.00".data))) ∧
      6 + 0 + 5 + 6 + 0 + ceilOfFifth "6.49".data + ceilOfFifth "10.00".data = 21 :=
  ⟨by decide, by decide!,
    fun conv => (getPoints_sum_of_rules conv (singletonStore "r1".data scenario1Receipt)
      "r1".data scenario1Receipt (by decide) (by decide!)).2
      ⟨"Gum".data, "6.49".data⟩ ⟨"Crisps".data, "10.00".data⟩
      (by decide) (by decide) (by decide) (by decide) (by decide) (by decide)
      (by decide) (by decide!) (by decide!),
    by rw [ceilOfFifth_eq, ceilOfFifth_eq]; decide!⟩

/-! ## Validation, field by field -/

/-- C11: for every receipt whose other fields are valid, `validateReceipt`
returns true if and only if the purchase date is a real calendar date written
`YYYY-MM-DD`, leap years respected. -/
theorem validateReceipt_date_iff (r : Receipt)
    (hothers : validateReceipt { r with PurchaseDate := "2022-01-01".data } = true) :
    validateReceipt r = true ↔ (calendarDate r.PurchaseDate).isSome = true := by
  rw [validateReceipt_iff] at hothers ⊢
  obtain ⟨h1, -, h3, h4, h5⟩ := hothers
  have e : (parseDate r.PurchaseDate).isSome = (calendarDate r.PurchaseDate).isSome := by
    rw [parseDate_eq_calendarDate]
    cases calendarDate r.PurchaseDate <;> rfl
  rw [e]
  exact ⟨fun h => h.2.1, fun h => ⟨h1, h, h3, h4, h5⟩⟩

/-- C11, witness: with the date `2023-02-30`, which has the digit shape and is
no calendar date, the receipt of scenario 1 is rejected; with the leap day
`2024-02-29` it is accepted. -/
theorem validateReceipt_date_iff_witness :
    calendarDate "2023-02-30".data = none ∧
      validateReceipt { targetReceipt with PurchaseDate := "2023-02-30".data } = false ∧
      calendarDate "2024-02-29".data = some (2024, 2, 29) ∧
      validateReceipt { targetReceipt with PurchaseDate := "2024-02-29".data } = true := by
  have h1 := validateReceipt_date_iff
    { targetReceipt with PurchaseDate := "2023-02-30".data } (by decide!)
  have h2 := validateReceipt_date_iff
    { targetReceipt with PurchaseDate := "2024-02-29".data } (by decide!)
  have c1 : calendarDate "2023-02-30".data = none := by decide
  have c2 : calendarDate "2024-02-29".data = some (2024, 2, 29) := by decide
  refine ⟨c1, ?_, c2, ?_⟩
  · cases h : validateReceipt { targetReceipt with PurchaseDate := "2023-02-30".data }
    · rfl
    · have := h1.1 h
      rw [show ({ targetReceipt with PurchaseDate := "2023-02-30".data } : Receipt).PurchaseDate
        = "2023-02-30".data from rfl, c1] at this
      exact absurd this (by decide)
  · apply h2.2
    rw [show ({ targetReceipt with PurchaseDate := "2024-02-29".data } : Receipt).PurchaseDate
      = "2024-02-29".data from rfl, c2]
    rfl

theorem moneyPattern_iff (s : Str) :
    MatchString moneyPattern s = true ↔ isMoneyText s = true := by
  rw [matchString_iff, mem_moneyPattern]
  constructor
  · rintro ⟨ip, a, b, hne, hd, ha, hb, rfl⟩
    unfold isMoneyText
    rw [(takeWhile_digits_append ip [a, b] hd).1, (takeWhile_digits_append ip [a, b] hd).2]
    cases ip with
    | nil => exact absurd rfl hne
    | cons c t => simp [ha, hb]
  · intro h
    unfold isMoneyText at h
    have hs : s.takeWhile isDigit ++ s.dropWhile isDigit = s := List.takeWhile_append_dropWhile _ _
    have hd : ∀ c ∈ s.takeWhile isDigit, isDigit c = true := fun c hc => List.mem_takeWhile_imp hc
    generalize s.takeWhile isDigit = ip at h hs hd
    generalize s.dropWhile isDigit = rest at h hs
    rw [Bool.and_eq_true] at h
    obtain ⟨hne, hrest⟩ := h
    rcases rest with _ | ⟨p, _ | ⟨a, _ | ⟨b, _ | ⟨c, t⟩⟩⟩⟩ <;> simp at hrest
    obtain ⟨⟨rfl, ha⟩, hb⟩ := hrest
    refine ⟨ip, a, b, ?_, hd, ha, hb, hs.symm⟩
    rintro rfl
    simp at hne

/-- C13: for every receipt whose other fields are valid, `validateReceipt`
returns true if and only if the total consists of one or more decimal digits,
a point and exactly two decimal digits, with no sign, no thousands separator
and no other character. -/
theorem validateReceipt_total_iff (r : Receipt)
    (hothers : validateReceipt { r with Total := "35.35".data } = true) :
    validateReceipt r = true ↔ isMoneyText r.Total = true := by
  rw [validateReceipt_iff] at hothers ⊢
  rw [← moneyPattern_iff]
  obtain ⟨h1, h2, h3, -, h5⟩ := hothers
  exact ⟨fun h => h.2.2.2.1, fun h => ⟨h1, h2, h3, h, h5⟩⟩

/-- C13, witness: the receipt of scenario 1 with the total `100.00` is
accepted; a sign, a thousands separator or a third fraction digit is not of
the money shape. -/
theorem validateReceipt_total_iff_witness :
    validateReceipt { { targetReceipt with Total := "100.00".data } with
        Total := "35.35".data } = true ∧
      (validateReceipt { targetReceipt with Total := "100.00".data } = true ↔
        isMoneyText "100.00".data = true) ∧
      isMoneyText "100.00".data = true ∧ isMoneyText "-1.00".data = false ∧
      isMoneyText "1,000.00".data = false ∧ isMoneyText "1.000".data = false ∧
      isMoneyText ".50".data = false :=
  ⟨by decide!,
    validateReceipt_total_iff { targetReceipt with Total := "100.00".data } (by decide!),
    by decide, by decide, by decide, by decide, by decide⟩

theorem itemDescPattern_iff (s : Str) :
    MatchString itemDescPattern s = true ↔
      (!s.isEmpty && s.all (fun c => isItemDescChar c || c == '_')) = true := by
  rw [matchString_iff, itemDescPattern, mem_many1_oneOf]
  have hc : ∀ c : Char, c ∈ wordChars ++ spaceChars ++ ['-'] ↔
      (isItemDescChar c || c == '_') = true := by
    intro c
    simp only [List.mem_append, mem_wordChars, mem_spaceChars, isItemDescChar, List.mem_cons,
      List.mem_singleton, Bool.or_eq_true, beq_iff_eq, List.not_mem_nil, or_false]
    tauto
  simp only [hc, Bool.and_eq_true, Bool.not_eq_true', List.all_eq_true,
    List.isEmpty_eq_false_iff_exists_mem]
  constructor
  · rintro ⟨hne, h⟩
    exact ⟨List.exists_mem_of_ne_nil s hne, h⟩
  · rintro ⟨⟨c, hc⟩, h⟩
    exact ⟨List.ne_nil_of_mem hc, h⟩

/-- C12, counterexample: an item whose description `A_B` contains an
underscore is accepted. -/
theorem validateReceipt_accepts_underscore_item :
    validateReceipt { targetReceipt with Items := [⟨"A_B".data, "1.00".data⟩] } = true ∧
      validateReceipt { targetReceipt with Items := [] } = true ∧
      [(⟨"A_B".data, "1.00".data⟩ : Item)].all isItemText = false := by
  decide!

/-- C12 (as amended): for every receipt whose other fields are valid,
`validateReceipt` returns true if and only if every item has a non-empty short
description composed only of ASCII letters, digits, underscores, whitespace and
hyphens, and a price of the money shape; an empty item sequence is accepted. -/
theorem validateReceipt_items_iff (r : Receipt)
    (hothers : validateReceipt { r with Items := [] } = true) :
    validateReceipt r = true ↔ r.Items.all isItemTextOrUnderscore = true := by
  rw [validateReceipt_iff] at hothers ⊢
  obtain ⟨h1, h2, h3, h4, -⟩ := hothers
  have hi : ∀ item : Item, (MatchString itemDescPattern item.ShortDescription = true ∧
      MatchString moneyPattern item.Price = true) ↔ isItemTextOrUnderscore item = true := by
    intro item
    rw [itemDescPattern_iff, moneyPattern_iff]
    unfold isItemTextOrUnderscore
    simp only [Bool.and_eq_true]
  rw [List.all_eq_true]
  constructor
  · intro h item hm
    exact (hi item).1 (h.2.2.2.2 item hm)
  · intro h
    exact ⟨h1, h2, h3, h4, fun item hm => (hi item).2 (h item hm)⟩

/-- C12, witness: the receipt of scenario 1 with no item is accepted. -/
theorem validateReceipt_items_iff_witness :
    validateReceipt { { targetReceipt with Items := [] } with Items := [] } = true ∧
      (validateReceipt { targetReceipt with Items := [] } = true ↔
        ([] : List Item).all isItemTextOrUnderscore = true) ∧
      validateReceipt { targetReceipt with Items := [] } = true :=
  ⟨by decide!, validateReceipt_items_iff { targetReceipt with Items := [] } (by decide!),
    by decide!⟩

/-! ## The store and the two handlers -/

/-- C14: a submission whose body fails to decode or whose receipt
`validateReceipt` rejects is answered with status 400 and leaves the store
exactly unchanged; an accepted receipt is answered with the generated
identifier, and the store then maps that identifier to the submitted receipt. -/
theorem processReceipt_spec (receipts : Store) (newID : Str) :
    processReceipt receipts none newID = (receipts, ProcessResponse.badRequest) ∧
      (∀ r, validateReceipt r = false →
        processReceipt receipts (some r) newID = (receipts, ProcessResponse.badRequest)) ∧
      (∀ r, validateReceipt r = true →
        (processReceipt receipts (some r) newID).2 = ProcessResponse.created newID ∧
          (processReceipt receipts (some r) newID).1 newID = some r) := by
  refine ⟨rfl, fun r hr => ?_, fun r hr => ?_⟩
  · simp [processReceipt, hr]
  · simp [processReceipt, hr]

/-- C14, witness: in the empty store a receipt without retailer is answered
with 400 and scenario 1 is stored under the generated identifier. -/
theorem processReceipt_spec_witness :
    validateReceipt { targetReceipt with Retailer := [] } = false ∧
      processReceipt emptyStore (some { targetReceipt with Retailer := [] }) sampleID =
        (emptyStore, ProcessResponse.badRequest) ∧
      validateReceipt targetReceipt = true ∧
      (processReceipt emptyStore (some targetReceipt) sampleID).2 =
        ProcessResponse.created sampleID ∧
      (processReceipt emptyStore (some targetReceipt) sampleID).1 sampleID = some targetReceipt :=
  ⟨by decide!,
    (processReceipt_spec emptyStore sampleID).2.1 { targetReceipt with Retailer := [] }
      (by decide!),
    by decide!,
    ((processReceipt_spec emptyStore sampleID).2.2 targetReceipt (by decide!)).1,
    ((processReceipt_spec emptyStore sampleID).2.2 targetReceipt (by decide!)).2⟩

/-- C15: round trip. When `processReceipt` accepts a receipt `r` and answers
with an identifier, `getPoints` on that identifier immediately afterwards does
not answer not-found: it answers with points, and they are the points computed
from `r`, the sum of the five rules on `r` as a 64-bit integer. -/
theorem getPoints_after_processReceipt (conv : IntConv) (receipts : Store) (r : Receipt)
    (newID : Str) (hr : validateReceipt r = true) :
    (processReceipt receipts (some r) newID).2 = ProcessResponse.created newID ∧
      (∃ p, score conv r = some p ∧
        getPoints conv (processReceipt receipts (some r) newID).1 newID =
          some (PointsResponse.points p)) ∧
      (∃ a b, isTotalRoundOrMultipleOfQuarter conv r.Total = some a ∧
        pointsForItems conv r.Items = some b ∧
        getPoints conv (processReceipt receipts (some r) newID).1 newID =
          some (PointsResponse.points (wrapInt (countOfAlphaNumInRetailer r.Retailer + a + b +
            isDateOdd r.PurchaseDate + isTimeBetweenTwoAndFour r.PurchaseTime)))) ∧
      getPoints conv (processReceipt receipts (some r) newID).1 newID ≠
        some PointsResponse.notFound := by
  have hs : (processReceipt receipts (some r) newID).1 newID = some r := by
    simp [processReceipt, hr]
  obtain ⟨a, b, ha, hb, hsc⟩ := score_of_valid conv r hr
  have hg := getPoints_of_score conv _ newID r _ hs hsc
  refine ⟨by simp [processReceipt, hr], ⟨_, hsc, hg⟩, ⟨a, b, ha, hb, hg⟩, ?_⟩
  rw [hg]
  exact fun h => PointsResponse.noConfusion (Option.some.inj h)

/-- C15, witness: scenario 1 submitted to the empty store and read back earns
21 points. -/
theorem getPoints_after_processReceipt_witness :
    validateReceipt scenario1Receipt = true ∧
      ∀ conv, getPoints conv (processReceipt emptyStore (some scenario1Receipt) sampleID).1
        sampleID = some (PointsResponse.points 21) :=
  ⟨by decide!, fun conv => by
    obtain ⟨-, ⟨p, hp, hg⟩, -, -⟩ :=
      getPoints_after_processReceipt conv emptyStore scenario1Receipt sampleID (by decide!)
    have h21 : score conv scenario1Receipt = some 21 :=
      (score_of_defined conv scenario1Receipt 0 9 (by decide!) (by decide!)).trans (by decide!)
    rw [h21] at hp
    rw [hg, ← Option.some.inj hp]⟩

/-- C16: for every store and every identifier that is not a key of it,
`getPoints` answers not-found and the store is unchanged; in the empty store
every identifier is answered with not-found. -/
theorem getPoints_unknown_id (conv : IntConv) (receipts : Store) (id : Str)
    (hid : receipts id = none) :
    getPoints conv receipts id = some PointsResponse.notFound ∧
      serve receipts (Request.points id) = receipts ∧
      ∀ other, getPoints conv emptyStore other = some PointsResponse.notFound := by
  refine ⟨?_, rfl, fun other => rfl⟩
  unfold getPoints
  rw [hid]

/-- C16, witness: the empty string and a never-issued identifier in a store
that holds scenario 1 under another identifier. -/
theorem getPoints_unknown_id_witness :
    singletonStore "r1".data targetReceipt [] = none ∧
      (∀ conv, getPoints conv (singletonStore "r1".data targetReceipt) [] =
        some PointsResponse.notFound) ∧
      singletonStore "r1".data targetReceipt sampleID = none ∧
      ∀ conv, getPoints conv (singletonStore "r1".data targetReceipt) sampleID =
        some PointsResponse.notFound :=
  ⟨by decide,
    fun conv =>
      (getPoints_unknown_id conv (singletonStore "r1".data targetReceipt) [] (by decide)).1,
    by decide,
    fun conv =>
      (getPoints_unknown_id conv (singletonStore "r1".data targetReceipt) sampleID
        (by decide)).1⟩

theorem serve_valid (receipts : Store) (q : Request)
    (h : ∀ id r, receipts id = some r → validateReceipt r = true) :
    ∀ id r, serve receipts q id = some r → validateReceipt r = true := by
  cases q with
  | points _ => exact h
  | process body newID =>
    intro id r hs
    cases body with
    | none => exact h id r hs
    | some b =>
      by_cases hv : validateReceipt b = true
      · simp only [serve, processReceipt, hv, Bool.not_true, Bool.false_eq_true, if_false] at hs
        by_cases hk : id = newID
        · rw [if_pos hk] at hs
          rw [← Option.some.inj hs]
          exact hv
        · rw [if_neg hk] at hs
          exact h id r hs
      · have hv' : validateReceipt b = false := by simpa using hv
        simp only [serve, processReceipt, hv', Bool.not_false, if_true] at hs
        exact h id r hs

/-- C17: in every store reachable from the empty store by a sequence of
`processReceipt` and `getPoints` requests, every stored receipt is accepted by
`validateReceipt`. -/
theorem stored_receipts_valid (requests : List Request) (id : Str) (r : Receipt)
    (h : serveAll emptyStore requests id = some r) : validateReceipt r = true := by
  have key : ∀ (qs : List Request) (s : Store),
      (∀ id r, s id = some r → validateReceipt r = true) →
      ∀ id r, serveAll s qs id = some r → validateReceipt r = true := by
    intro qs
    induction qs with
    | nil => intro s hs; exact hs
    | cons q t ih =>
      intro s hs
      exact ih (serve s q) (serve_valid s q hs)
  exact key requests emptyStore (fun id r hr => by simp [emptyStore] at hr) id r h

/-- C17, witness: after an invalid submission, a valid one and a lookup, the
store holds scenario 1, which is valid. -/
theorem stored_receipts_valid_witness :
    serveAll emptyStore
        [Request.process (some { targetReceipt with Retailer := [] }) "r0".data,
          Request.process (some targetReceipt) sampleID, Request.points sampleID] sampleID =
        some targetReceipt ∧
      validateReceipt targetReceipt = true :=
  ⟨by decide!,
    stored_receipts_valid
      [Request.process (some { targetReceipt with Retailer := [] }) "r0".data,
        Request.process (some targetReceipt) sampleID, Request.points sampleID]
      sampleID targetReceipt (by decide!)⟩

/-- C20, counterexample: when `generateID` returns an identifier that is
already a key, `processReceipt` overwrites the record stored under it. -/
theorem processReceipt_overwrites_on_collision :
    singletonStore sampleID targetReceipt sampleID = some targetReceipt ∧
      validateReceipt scenario1Receipt = true ∧
      serve (singletonStore sampleID targetReceipt)
        (Request.process (some scenario1Receipt) sampleID) sampleID = some scenario1Receipt ∧
      scenario1Receipt ≠ targetReceipt := by
  decide!

/-- C20 (as amended): stored records are never mutated or removed, provided
the identifier that `generateID` returns is not already a key of the store:
after any request every identifier that was a key is still a key and maps to
the same receipt. -/
theorem serve_preserves_records (receipts : Store) (q : Request)
    (hfresh : ∀ body newID, q = Request.process body newID → receipts newID = none)
    (id : Str) (r : Receipt) (h : receipts id = some r) :
    serve receipts q id = some r := by
  cases q with
  | points _ => exact h
  | process body newID =>
    have hn := hfresh body newID rfl
    have hne : id ≠ newID := by
      rintro rfl
      rw [hn] at h
      exact absurd h (by simp)
    cases body with
    | none => exact h
    | some b =>
      by_cases hv : validateReceipt b = true
      · simp only [serve, processReceipt, hv, Bool.not_true, Bool.false_eq_true, if_false]
        rw [if_neg hne]
        exact h
      · have hv' : validateReceipt b = false := by simpa using hv
        simp only [serve, processReceipt, hv', Bool.not_false, if_true]
        exact h

/-- C20, witness: storing scenario 1 under a fresh identifier leaves the
record under `r1` as it was. -/
theorem serve_preserves_records_witness :
    singletonStore "r1".data targetReceipt sampleID = none ∧
      singletonStore "r1".data targetReceipt "r1".data = some targetReceipt ∧
      serve (singletonStore "r1".data targetReceipt)
        (Request.process (some scenario1Receipt) sampleID) "r1".data = some targetReceipt :=
  ⟨by decide, by decide,
    serve_preserves_records (singletonStore "r1".data targetReceipt)
      (Request.process (some scenario1Receipt) sampleID)
      (fun body newID hq => by
        have h2 : sampleID = newID := (Request.process.inj hq).2
        rw [← h2]
        decide)
      "r1".data targetReceipt (by decide)⟩

/-! ## Order of the items -/

theorem itemStep_eq_delta (conv : IntConv) (points : Int) (item : Item) :
    itemStep conv points item = (itemDelta conv item).map (addDelta points) := by
  unfold itemStep itemDelta
  by_cases hq : byteLen (TrimSpace item.ShortDescription) % 3 = 0
  · rw [if_pos hq, if_pos hq]
    cases ParseFloat item.Price with
    | none => rfl
    | some res =>
      cases res with
      | rangeErr => rfl
      | ok priceFloat =>
        show some (wrapInt (points + convertInt conv ((priceFloat.mul f0_2).map F64.ceil))) =
          (some (some (convertInt conv ((priceFloat.mul f0_2).map F64.ceil)))).map
            (addDelta points)
        generalize convertInt conv ((priceFloat.mul f0_2).map F64.ceil) = n
        rfl
  · rw [if_neg hq, if_neg hq]
    rfl

theorem addDelta_comm (p : Int) (d e : Option Int) :
    addDelta (addDelta p d) e = addDelta (addDelta p e) d := by
  cases d with
  | none => rfl
  | some n =>
    cases e with
    | none => rfl
    | some m =>
      show wrapInt (wrapInt (p + n) + m) = wrapInt (wrapInt (p + m) + n)
      rw [wrapInt_add_wrapInt, wrapInt_add_wrapInt, add_right_comm]

theorem itemStep_comm (conv : IntConv) (z : Option Int) (x y : Item) :
    (z.bind (fun b => itemStep conv b x)).bind (fun b => itemStep conv b y) =
      (z.bind (fun b => itemStep conv b y)).bind (fun b => itemStep conv b x) := by
  have hx : (fun b => itemStep conv b x) = fun b => (itemDelta conv x).map (addDelta b) :=
    funext (fun b => itemStep_eq_delta conv b x)
  have hy : (fun b => itemStep conv b y) = fun b => (itemDelta conv y).map (addDelta b) :=
    funext (fun b => itemStep_eq_delta conv b y)
  rw [hx, hy]
  generalize itemDelta conv x = dx
  generalize itemDelta conv y = dy
  cases z with
  | none => rfl
  | some p =>
    cases dx with
    | none => cases dy <;> rfl
    | some d =>
      cases dy with
      | none => rfl
      | some e =>
        show some (addDelta (addDelta p d) e) = some (addDelta (addDelta p e) d)
        rw [addDelta_comm]

theorem foldlM_itemStep_eq_foldl (conv : IntConv) (items : List Item) (init : Option Int) :
    init.bind (fun b => items.foldlM (itemStep conv) b) =
      items.foldl (fun acc item => acc.bind (fun b => itemStep conv b item)) init := by
  induction items generalizing init with
  | nil => cases init <;> rfl
  | cons x t ih =>
    rw [List.foldl_cons, ← ih]
    cases init with
    | none => rfl
    | some p =>
      rw [Option.some_bind, Option.some_bind, List.foldlM_cons]
      rfl

/-- C18: `pointsForItems` is invariant under reordering of the items: for
every item list and every permutation of it the result is the same. -/
theorem pointsForItems_perm (conv : IntConv) (items reordered : List Item)
    (h : items.Perm reordered) :
    pointsForItems conv items = pointsForItems conv reordered := by
  unfold pointsForItems
  simp only
  rw [h.length_eq]
  have e1 := foldlM_itemStep_eq_foldl conv items (some (((reordered.length : Int) / 2) * 5))
  have e2 := foldlM_itemStep_eq_foldl conv reordered (some (((reordered.length : Int) / 2) * 5))
  rw [Option.some_bind] at e1 e2
  rw [e1, e2]
  exact h.foldl_eq' (fun x _ y _ z => itemStep_comm conv z x y) _

/-- C18, witness: three items in two orders earn the same points. -/
theorem pointsForItems_perm_witness :
    [(⟨"Gum".data, "6.49".data⟩ : Item), ⟨"Pepsi".data, "12.25".data⟩,
        ⟨"Crisps".data, "10.00".data⟩].Perm
        [⟨"Crisps".data, "10.00".data⟩, ⟨"Gum".data, "6.49".data⟩,
          ⟨"Pepsi".data, "12.25".data⟩] ∧
      (∀ conv, pointsForItems conv [⟨"Gum".data, "6.49".data⟩, ⟨"Pepsi".data, "12.25".data⟩,
          ⟨"Crisps".data, "10.00".data⟩] =
        pointsForItems conv [⟨"Crisps".data, "10.00".data⟩, ⟨"Gum".data, "6.49".data⟩,
          ⟨"Pepsi".data, "12.25".data⟩]) ∧
      ∀ conv, pointsForItems conv [⟨"Crisps".data, "10.00".data⟩, ⟨"Gum".data, "6.49".data⟩,
          ⟨"Pepsi".data, "12.25".data⟩] = some 9 :=
  ⟨by decide,
    fun conv => pointsForItems_perm conv _ _ (by decide),
    fun conv => pointsForItems_of_defined conv _ 9 (by decide!)⟩

/-! ## The defensive branches -/

theorem ten_pow_308_le : 10 ^ 308 ≤ (2 ^ 53 - 1) * 2 ^ 971 := by decide!

theorem roundUnits_le_of_le (n d J t : Nat) (hd : 0 < d) (hn : n ≤ J * 2 ^ t * d)
    (hs : bitLen (n / d) - 53 ≤ t) : roundUnits n d ≤ J * 2 ^ t := by
  unfold roundUnits
  simp only
  generalize bitLen (n / d) - 53 = s at hs
  have hpos : 0 < d * 2 ^ s := Nat.mul_pos hd (Nat.two_pow_pos _)
  have hb := (roundHalfEven_bounds n (d * 2 ^ s) hpos).2
  have et : 2 ^ t = 2 ^ (t - s) * 2 ^ s := by
    rw [← pow_add, Nat.sub_add_cancel hs]
  have hn2 : n ≤ d * 2 ^ s * (J * 2 ^ (t - s)) := by
    calc n ≤ J * 2 ^ t * d := hn
      _ = d * 2 ^ s * (J * 2 ^ (t - s)) := by rw [et]; ring
  have hr : roundHalfEven n (d * 2 ^ s) ≤ J * 2 ^ (t - s) := by
    by_contra hc
    have h1 : d * 2 ^ s * (J * 2 ^ (t - s) + 1) ≤ d * 2 ^ s * roundHalfEven n (d * 2 ^ s) :=
      Nat.mul_le_mul_left _ (by omega)
    rw [Nat.mul_add, Nat.mul_one] at h1
    omega
  calc roundHalfEven n (d * 2 ^ s) * 2 ^ s ≤ J * 2 ^ (t - s) * 2 ^ s :=
        Nat.mul_le_mul_right _ hr
    _ = J * 2 ^ t := by rw [et]; ring

theorem parseFloat_ok (s : Str) (hm : MatchString moneyPattern s = true)
    (hD : dollarsOf s < 10 ^ 308) : ∃ f, ParseFloat s = some (ParseFloatResult.ok f) := by
  obtain ⟨ip, a, b, hne, hd, ha, hb, rfl⟩ := (mem_moneyPattern s).1 ((matchString_iff _ _).1 hm)
  obtain ⟨h1, -, h3⟩ := money_parts ip a b hd ha hb
  have hpf := parseFloat_money ip a b hne hd ha hb
  rw [h1] at hD
  have hF : digitVal a * 10 + digitVal b ≤ 99 := by
    have := digitVal_le_nine ha
    have := digitVal_le_nine hb
    omega
  have hc : centsOf (ip ++ ['.', a, b]) ≤ 10 ^ 308 * 100 := by
    rw [h3]
    generalize 10 ^ 308 = T at hD
    omega
  generalize centsOf (ip ++ ['.', a, b]) = c at hpf hc
  have hU := oneUnits_pos
  -- the largest binary64 number, in units
  have hn : c * oneUnits ≤ (2 ^ 53 - 1) * 2 ^ (971 + 1074) * 100 := by
    calc c * oneUnits ≤ 10 ^ 308 * 100 * oneUnits := Nat.mul_le_mul_right _ hc
      _ ≤ (2 ^ 53 - 1) * 2 ^ 971 * 100 * oneUnits :=
        Nat.mul_le_mul_right _ (Nat.mul_le_mul_right _ ten_pow_308_le)
      _ = (2 ^ 53 - 1) * 2 ^ (971 + 1074) * 100 := by
        rw [pow_add, ← oneUnits_def]
        ring
  have hmax : (2 ^ 53 - 1) * 2 ^ (971 + 1074) < 2 ^ (53 + (971 + 1074)) := by
    rw [pow_add 2 53]
    exact Nat.mul_lt_mul_of_pos_right (Nat.sub_lt (Nat.two_pow_pos _) (by norm_num))
      (Nat.two_pow_pos _)
  have hq : c * oneUnits / 100 < 2 ^ (53 + (971 + 1074)) := by
    apply Nat.div_lt_of_lt_mul
    have : 2 ^ (53 + (971 + 1074)) ≤ 100 * 2 ^ (53 + (971 + 1074)) :=
      Nat.le_mul_of_pos_left _ (by norm_num)
    have := Nat.mul_lt_mul_of_pos_right hmax (show 0 < 100 by norm_num)
    rw [Nat.mul_comm (2 ^ (53 + (971 + 1074))) 100] at this
    omega
  have hs : bitLen (c * oneUnits / 100) - 53 ≤ 971 + 1074 := by
    have := bitLen_le_of_lt hq
    omega
  have hk := roundUnits_le_of_le (c * oneUnits) 100 (2 ^ 53 - 1) (971 + 1074) (by norm_num) hn hs
  have hlt : roundUnits (c * oneUnits) 100 < 2 ^ 1024 * oneUnits := by
    have e : 2 ^ 1024 * oneUnits = 2 ^ (53 + (971 + 1074)) := by
      rw [two_pow_mul_oneUnits]
    rw [e]
    omega
  have hof : F64.ofRat c 100 = some ⟨roundUnits (c * oneUnits) 100⟩ := by
    unfold F64.ofRat
    simp only
    rw [if_pos hlt]
  rw [hof] at hpf
  exact ⟨_, hpf⟩

theorem parseClock_isSome_of_match (t : Str) (h : MatchString timePattern t = true) :
    (parseClock t).isSome = true := by
  rw [timePattern_iff] at h
  rcases t with _ | ⟨c1, _ | ⟨c2, _ | ⟨c3, _ | ⟨c4, _ | ⟨c5, _ | ⟨c6, t⟩⟩⟩⟩⟩⟩ <;>
    simp [isHHMM, isHMM, decimalValue_two] at h
  · obtain ⟨⟨⟨⟨h1, rfl⟩, h3⟩, h4⟩, h5⟩ := h
    rw [parseClock_one h1 h3 h4 h5]
    rfl
  · obtain ⟨⟨⟨⟨⟨⟨h1, h2⟩, rfl⟩, h4⟩, h5⟩, h6⟩, h7⟩ := h
    rw [parseClock_two h1 h2 h4 h5 h6 h7]
    rfl

theorem hugeTotal_matches : MatchString moneyPattern hugeTotal = true := by
  rw [matchString_iff, mem_moneyPattern]
  refine ⟨'2' :: List.replicate 308 '0', '0', '0', List.cons_ne_nil _ _, ?_, by decide,
    by decide, ?_⟩
  · intro c hc
    rw [List.mem_cons, List.mem_replicate] at hc
    rcases hc with rfl | ⟨-, rfl⟩ <;> decide
  · rfl

/-- C19, counterexample: the receipt of scenario 1 with a total of 309 integer
digits is accepted by `validateReceipt`, and `strconv.ParseFloat` fails on the
total with `ErrRange`, so that `isTotalRoundOrMultipleOfQuarter` takes its
error branch and returns 0. -/
theorem accepted_total_fails_to_parse :
    validateReceipt { targetReceipt with Total := hugeTotal } = true ∧
      ParseFloat hugeTotal = some ParseFloatResult.rangeErr ∧
      ∀ conv, isTotalRoundOrMultipleOfQuarter conv hugeTotal = some 0 := by
  refine ⟨?_, by decide!, fun conv => total_of_defined conv _ 0 (by decide!)⟩
  rw [validateReceipt_iff]
  exact ⟨by decide!, by decide!, by decide!, hugeTotal_matches, by decide!⟩

/-- C19 (as amended): for every receipt accepted by `validateReceipt` whose
total and item prices are below 10^308, none of the parse-failure branches of
the scoring functions is taken: the total and every item price parse as
decimal numbers, and the purchase date and the purchase time parse. -/
theorem accepted_receipt_parses (r : Receipt) (hr : validateReceipt r = true)
    (htotal : dollarsOf r.Total < 10 ^ 308)
    (hprices : ∀ item ∈ r.Items, dollarsOf item.Price < 10 ^ 308) :
    (∃ f, ParseFloat r.Total = some (ParseFloatResult.ok f)) ∧
      (∀ item ∈ r.Items, ∃ f, ParseFloat item.Price = some (ParseFloatResult.ok f)) ∧
      (parseDate r.PurchaseDate).isSome = true ∧ (parseClock r.PurchaseTime).isSome = true := by
  obtain ⟨-, h2, h3, h4, h5⟩ := (validateReceipt_iff r).1 hr
  exact ⟨parseFloat_ok _ h4 htotal,
    fun item hi => parseFloat_ok _ (h5 item hi).2 (hprices item hi), h2,
    parseClock_isSome_of_match _ h3⟩

/-- C19, witness: the receipt of scenario 1. -/
theorem accepted_receipt_parses_witness :
    validateReceipt targetReceipt = true ∧ dollarsOf targetReceipt.Total < 10 ^ 308 ∧
      (∃ f, ParseFloat targetReceipt.Total = some (ParseFloatResult.ok f)) ∧
      (parseDate targetReceipt.PurchaseDate).isSome = true ∧
      (parseClock targetReceipt.PurchaseTime).isSome = true :=
  have h := accepted_receipt_parses targetReceipt (by decide!) (by decide!) (by decide!)
  ⟨by decide!, by decide!, h.1, h.2.2.1, h.2.2.2⟩

end ReceiptProcessor
